import Mathlib

/-!
# Package `strand` (src/daemon/strand/strand.go)

A shallow embedding of `Strand` and `StrandCanQuit`.

* Go's `error` is `GoError` (`none` is nil).
* A `func() error` is a function on the state its closure can reach; it either
  returns an error value or panics (`Outcome`).
* The logger is represented by the list of calls made to it (`LogEntry`).
* `time.Now()` reads the field `now` of the environment, which only the
  submitted operations advance.
* One call on its own: the call meets the queue `c` through the instant at
  which its send completes and through the number of times the consumer calls
  the `Func` it received (`Queue`); a signal channel is the instant from which
  it is closed (`Signal`).
* Several calls at once: an interleaving model (`Sys`, `step`, `runSched`) in
  which the goroutines calling `Strand` and one sequential consumer take turns.
-/

set_option autoImplicit false
set_option linter.unusedVariables false

namespace strand

/-- Go `error` value: `none` is nil, `some m` is an error with text `m`. -/
abbrev GoError := Option String

/-- How a call of a `func() error` ends: it returns an error value, or it panics. -/
inductive Outcome where
  | ret (e : GoError)
  | panic (v : String)
deriving DecidableEq, Repr

/-- Type `Request` (strand.go:10-13). `S` is the state the closure `Func` acts on. -/
structure Request (S : Type) where
  Name : String
  Func : S → Outcome × S

/-- The three logger methods used by the package. -/
inductive Level where
  | Debug
  | Warning
  | Error
deriving DecidableEq, Repr

/-- An argument handed to a logger method after the format string. -/
inductive Arg where
  | str (s : String)
  | err (e : GoError)
  | dur (d : Int)
deriving DecidableEq, Repr

/-- One call of a logger method: the method, the format string, the arguments. -/
structure LogEntry where
  level : Level
  format : String
  args : List Arg
deriving DecidableEq, Repr

/-- What a submitted operation can touch: the clock (monotonic reading of
`time.Now()`, in nanoseconds) and the shared resource. -/
structure Env (σ : Type) where
  now : Int
  res : σ

/-- Constant `time.Second`, a `time.Duration` in nanoseconds. -/
def Second : Int := 1000000000

/-- Largest `time.Duration` (an int64). -/
def maxDuration : Int := 9223372036854775807

/-- Smallest `time.Duration` (an int64). -/
def minDuration : Int := -9223372036854775808

/-- Method `Time.Sub` on monotonic readings: the difference `t - u`, saturated
to the range of `time.Duration`. -/
def Sub (t u : Int) : Int :=
  if t - u > maxDuration then maxDuration
  else if t - u < minDuration then minDuration
  else t - u

/-- State reachable from the closure built by one activation of `Strand` or
`StrandCanQuit`: the environment, the logger, and the two locals `done` and
`err` the closure captures. `invoked` is a ghost counter of the calls of
`req.Func`. -/
structure Call (σ : Type) where
  env : Env σ
  log : List LogEntry
  done : Bool
  err : GoError
  invoked : Nat

/-- One call `logger.<lv>(format, args...)`. -/
def logf {σ : Type} (lv : Level) (format : String) (args : List Arg) (s : Call σ) : Call σ :=
  { s with log := s.log ++ [⟨lv, format, args⟩] }

/-- Deferred `close(done)`: runs when the closure returns or unwinds; closing a
closed channel panics. -/
def closeDone {σ : Type} (r : Outcome × Call σ) : Outcome × Call σ :=
  if r.2.done then (Outcome.panic "close of closed channel", r.2)
  else (r.1, { r.2 with done := true })

/-- The closure `Func` built by `Strand` (strand.go:25-45). -/
def Strand.Func {σ : Type} (req : Request (Env σ)) (s : Call σ) : Outcome × Call σ :=
  closeDone <|                                                        -- defer close(done)
    let t := s.env.now                                                -- t := time.Now()
    let s := logf Level.Debug "%s begin" [Arg.str req.Name] s         -- logger.Debug("%s begin", req.Name)
    match req.Func s.env with                                         -- err = req.Func()
    | (Outcome.panic v, env) =>
      (Outcome.panic v, { s with env := env, invoked := s.invoked + 1 })
    | (Outcome.ret e, env) =>
      let s := { s with env := env, invoked := s.invoked + 1, err := e }
      let s := if s.err ≠ none                                        -- if err != nil
        then logf Level.Error "%s error: %v" [Arg.str req.Name, Arg.err s.err] s
        else s
      let elapsed := Sub s.env.now t                                  -- elapsed := time.Now().Sub(t)
      let s := if elapsed > Second                                    -- if elapsed > time.Second
        then logf Level.Warning "%s took %s" [Arg.str req.Name, Arg.dur elapsed] s
        else logf Level.Debug "%s took %s" [Arg.str req.Name, Arg.dur elapsed] s
      (Outcome.ret s.err, s)                                          -- return err

/-- The closure `Func` built by `StrandCanQuit` (strand.go:67-87). -/
def StrandCanQuit.Func {σ : Type} (req : Request (Env σ)) (s : Call σ) : Outcome × Call σ :=
  closeDone <|                                                        -- defer close(done)
    let t := s.env.now                                                -- t := time.Now()
    let s := logf Level.Debug "%s begin" [Arg.str req.Name] s         -- logger.Debug("%s begin", req.Name)
    match req.Func s.env with                                         -- err = req.Func()
    | (Outcome.panic v, env) =>
      (Outcome.panic v, { s with env := env, invoked := s.invoked + 1 })
    | (Outcome.ret e, env) =>
      let s := { s with env := env, invoked := s.invoked + 1, err := e }
      let s := if s.err ≠ none                                        -- if err != nil
        then logf Level.Error "%s error: %v" [Arg.str req.Name, Arg.err s.err] s
        else s
      let elapsed := Sub s.env.now t                                  -- elapsed := time.Now().Sub(t)
      let s := if elapsed > Second                                    -- if elapsed > time.Second
        then logf Level.Warning "%s took %s" [Arg.str req.Name, Arg.dur elapsed] s
        else logf Level.Debug "%s took %s" [Arg.str req.Name, Arg.dur elapsed] s
      (Outcome.ret s.err, s)                                          -- return err

/-- The queue `c` as one submission meets it: `acceptAt` is the instant at
which the send on `c` completes (`none`: no receiver ever takes it), and
`invocations` is the number of times the consumer calls the `Func` of the
request it received. -/
structure Queue where
  acceptAt : Option Nat
  invocations : Nat

/-- A signal channel (`chan struct{}` that is only ever closed): the instant
from which it is closed, `none` when it never is. Instant 0 is the start of the
call. -/
abbrev Signal := Option Nat

/-- The consumer calls the `Func` of a received request `k` times in a row; a
panic that reaches it ends its dealings with the request. Returns what each call
handed back to the consumer. -/
def consume {S : Type} : Nat → Request S → S → List Outcome × S
  | 0, _, s => ([], s)
  | k + 1, r, s =>
    match r.Func s with
    | (Outcome.panic v, s1) => ([Outcome.panic v], s1)
    | (Outcome.ret e, s1) =>
      let rest := consume k r s1
      (Outcome.ret e :: rest.1, rest.2)

/-- Observable record of one call of `Strand` or `StrandCanQuit`. -/
structure Run (σ : Type) where
  -- value returned to the caller; `none` when the call blocks for ever
  result : Option GoError
  -- requests this call placed on `c`
  sent : List (Request (Call σ))
  -- what the consumer got back from each call of the received `Func`
  seen : List Outcome
  -- state once the consumer is through with the request
  final : Call σ

/-- Function `Strand` (strand.go:19-50). The logger is the list `log`. -/
def Strand {σ : Type} (c : Queue) (req : Request (Env σ)) (env : Env σ)
    (log : List LogEntry) : Run σ :=
  -- done := make(chan struct{}); var err error
  let s0 : Call σ := { env := env, log := log, done := false, err := none, invoked := 0 }
  let r : Request (Call σ) := { Name := req.Name, Func := Strand.Func req }
  match c.acceptAt with                                               -- c <- Request{...}
  | none => { result := none, sent := [], seen := [], final := s0 }
  | some _ =>
    let after := consume c.invocations r s0
    { result := if after.2.done then some after.2.err else none       -- <-done; return err
      sent := [r]
      seen := after.1
      final := after.2 }

/-- Which case of the `select` in `StrandCanQuit` proceeds. -/
inductive Branch where
  | quit
  | send
  | blocked
deriving DecidableEq, Repr

/-- Go `select` over a receive from a signal and a send: it blocks until a
case can proceed, the first case to become ready proceeds, and when both are
ready together the runtime's pseudo-random choice `pick` decides (`true`: the
receive). -/
def select (sig : Signal) (acceptAt : Option Nat) (pick : Bool) : Branch :=
  match sig, acceptAt with
  | none, none => Branch.blocked
  | some _, none => Branch.quit
  | none, some _ => Branch.send
  | some a, some b =>
    if a < b then Branch.quit
    else if b < a then Branch.send
    else if pick then Branch.quit else Branch.send

/-- Function `StrandCanQuit` (strand.go:58-93). `quit` is the identifier the
`select` receives from at line 63: it is not the parameter `q`, so it is a
package-level channel declared outside this file and is taken as a parameter. -/
def StrandCanQuit {σ : Type} (quit : Signal) (pick : Bool)
    (c : Queue) (req : Request (Env σ)) (q : Signal) (quitErr : GoError)
    (env : Env σ) (log : List LogEntry) : Run σ :=
  -- done := make(chan struct{}); var err error
  let s0 : Call σ := { env := env, log := log, done := false, err := none, invoked := 0 }
  let r : Request (Call σ) := { Name := req.Name, Func := StrandCanQuit.Func req }
  match select quit c.acceptAt pick with                              -- select {
  | Branch.blocked => { result := none, sent := [], seen := [], final := s0 }
  | Branch.quit =>                                                    -- case <-quit: return quitErr
    { result := some quitErr, sent := [], seen := [], final := s0 }
  | Branch.send =>                                                    -- case c <- Request{...}:
    let after := consume c.invocations r s0
    { result := if after.2.done then some after.2.err else none       -- <-done; return err
      sent := [r]
      seen := after.1
      final := after.2 }

/-- Entries the call added to the logger. -/
def emitted {σ : Type} (r : Run σ) (log : List LogEntry) : List LogEntry :=
  r.final.log.drop log.length

/-- Entries of a given level. -/
def atLevel (lv : Level) (es : List LogEntry) : List LogEntry :=
  es.filter (fun e => e.level = lv)

/-- The "took" lines: entries with format `%s took %s`. -/
def tookLines (es : List LogEntry) : List LogEntry :=
  es.filter (fun e => e.format = "%s took %s")

/-- An operation on a resource-free environment that takes `d` nanoseconds and
returns `e`. -/
def opTakes (d : Int) (e : GoError) : Env Unit → Outcome × Env Unit :=
  fun env => (Outcome.ret e, { env with now := env.now + d })

/-- An operation that panics with `v` at once. -/
def opPanics (v : String) : Env Unit → Outcome × Env Unit :=
  fun env => (Outcome.panic v, env)

/-- A queue that takes the send at once and whose consumer calls `Func` once. -/
def readyOnce : Queue := { acceptAt := some 0, invocations := 1 }

/-- A queue on which no receiver ever takes the send. -/
def neverAccepts : Queue := { acceptAt := none, invocations := 1 }

/-- Environment with the clock at 0. -/
def env0 : Env Unit := { now := 0, res := () }

/-! ## Several goroutines calling `Strand` on one queue

An interleaving model: the goroutines that call `Strand` and the consumer take
turns, one atomic step at a time. The steps of a submitter are the two channel
operations of `Strand`; the steps of the consumer are its receive and the
statements of the closure it received. -/

/-- Control point of a goroutine running `Strand`. -/
inductive Pc where
  | start
  | waiting
  | returned (e : GoError)
deriving DecidableEq, Repr

/-- One activation of `Strand`: its control point, its locals `done` and
`err`, and ghost history: `invoked` counts the calls of its `req.Func`,
`produced` records how that call ended, `closes` counts the closings of
`done`. -/
structure Submitter where
  pc : Pc
  done : Bool
  err : GoError
  invoked : Nat
  produced : Option Outcome
  closes : Nat

/-- Control point of the consumer goroutine. `inOp i t`: inside the closure of
submitter `i`, in the call `req.Func()` of line 32, `t` being the reading of
line 28. `afterOp i t`: `err` assigned, before line 33. `exiting i e`: at
`return err` with value `e`, the deferred close pending. `unwinding i v`:
`req.Func()` panicked with `v`, the deferred close pending. `dead v`: a panic
reached the consumer. -/
inductive CPc where
  | idle
  | inOp (i : Nat) (t : Int)
  | afterOp (i : Nat) (t : Int)
  | exiting (i : Nat) (e : GoError)
  | unwinding (i : Nat) (v : String)
  | dead (v : String)
deriving DecidableEq, Repr

/-- State of the whole system. `queue` is the content of the channel `c`
(submitters whose request is in it, oldest first). Ghost history: `accepted`
lists the submitters in the order their requests were accepted onto `c`, `ran`
lists those whose operation has ended, in order. -/
structure Sys (σ : Type) where
  env : Env σ
  log : List LogEntry
  subs : Nat → Submitter
  queue : List Nat
  consumer : CPc
  accepted : List Nat
  ran : List Nat

/-- The submitters: `n` goroutines, goroutine `i` calling
`Strand(logger, c, reqs i)`, on a channel `c` of capacity `cap` (0: unbuffered). -/
structure Cfg (σ : Type) where
  n : Nat
  cap : Nat
  reqs : Nat → Request (Env σ)

/-- The atomic steps. `send i`: submitter `i` completes `c <- Request{...}`
(line 23). `recv`: the consumer receives the oldest request and calls its
`Func`, which runs lines 28-30 and calls `req.Func()`. `opEnd`: `req.Func()`
ends; on return its value is assigned to `err` (line 32). `logs`: lines 33-44.
`close`: the deferred `close(done)` of line 26, after which the closure is left.
`wake i`: submitter `i` passes `<-done` and returns `err` (lines 48-49). -/
inductive Action where
  | send (i : Nat)
  | recv
  | opEnd
  | logs
  | close
  | wake (i : Nat)
deriving DecidableEq, Repr

/-- A fresh activation: `done := make(chan struct{})`, `var err error`. -/
def Submitter.fresh : Submitter :=
  { pc := Pc.start, done := false, err := none, invoked := 0, produced := none, closes := 0 }

/-- Initial state: every goroutine is about to call `Strand`, the consumer is
at its receive, the channel is empty. -/
def init {σ : Type} (env : Env σ) (log : List LogEntry) : Sys σ :=
  { env := env, log := log, subs := fun _ => Submitter.fresh, queue := [],
    consumer := CPc.idle, accepted := [], ran := [] }

/-- Modelled from the spec: the consumer loop (section 6: it receives units of
work from the queue and invokes each exactly once, synchronously, before
receiving the next). Its steps inside a received `Func` are the statements of
the closure of `Strand`; the steps of the submitters are those of `Strand`. -/
def step {σ : Type} (cfg : Cfg σ) (s : Sys σ) : Action → Option (Sys σ)
  | Action.send i =>
    if i < cfg.n ∧ (s.subs i).pc = Pc.start ∧
        (s.queue.length < cfg.cap ∨ (s.queue = [] ∧ s.consumer = CPc.idle)) then
      some { s with
        subs := Function.update s.subs i { s.subs i with pc := Pc.waiting }
        queue := s.queue ++ [i]
        accepted := s.accepted ++ [i] }
    else none
  | Action.recv =>
    match s.consumer, s.queue with
    | CPc.idle, i :: rest =>
      some { s with
        queue := rest
        log := s.log ++ [⟨Level.Debug, "%s begin", [Arg.str (cfg.reqs i).Name]⟩]
        consumer := CPc.inOp i s.env.now }
    | _, _ => none
  | Action.opEnd =>
    match s.consumer with
    | CPc.inOp i t =>
      match (cfg.reqs i).Func s.env with
      | (Outcome.ret e, env) =>
        some { s with
          env := env
          subs := Function.update s.subs i
            { s.subs i with
              err := e, invoked := (s.subs i).invoked + 1, produced := some (Outcome.ret e) }
          consumer := CPc.afterOp i t
          ran := s.ran ++ [i] }
      | (Outcome.panic v, env) =>
        some { s with
          env := env
          subs := Function.update s.subs i
            { s.subs i with
              invoked := (s.subs i).invoked + 1, produced := some (Outcome.panic v) }
          consumer := CPc.unwinding i v
          ran := s.ran ++ [i] }
    | _ => none
  | Action.logs =>
    match s.consumer with
    | CPc.afterOp i t =>
      let err := (s.subs i).err
      let log1 :=
        if err ≠ none
        then s.log ++ [⟨Level.Error, "%s error: %v", [Arg.str (cfg.reqs i).Name, Arg.err err]⟩]
        else s.log
      let elapsed := Sub s.env.now t
      let log2 :=
        if elapsed > Second
        then log1 ++ [⟨Level.Warning, "%s took %s", [Arg.str (cfg.reqs i).Name, Arg.dur elapsed]⟩]
        else log1 ++ [⟨Level.Debug, "%s took %s", [Arg.str (cfg.reqs i).Name, Arg.dur elapsed]⟩]
      some { s with log := log2, consumer := CPc.exiting i err }
    | _ => none
  | Action.close =>
    match s.consumer with
    | CPc.exiting i _ =>
      if (s.subs i).done then some { s with consumer := CPc.dead "close of closed channel" }
      else
        some { s with
          subs := Function.update s.subs i
            { s.subs i with done := true, closes := (s.subs i).closes + 1 }
          consumer := CPc.idle }
    | CPc.unwinding i v =>
      if (s.subs i).done then some { s with consumer := CPc.dead "close of closed channel" }
      else
        some { s with
          subs := Function.update s.subs i
            { s.subs i with done := true, closes := (s.subs i).closes + 1 }
          consumer := CPc.dead v }
    | _ => none
  | Action.wake i =>
    if (s.subs i).pc = Pc.waiting ∧ (s.subs i).done = true then
      some { s with
        subs := Function.update s.subs i { s.subs i with pc := Pc.returned (s.subs i).err } }
    else none

/-- Run a schedule: the listed steps one after another; `none` when a step is
not enabled where the schedule asks for it. -/
def runSched {σ : Type} (cfg : Cfg σ) (s : Sys σ) : List Action → Option (Sys σ)
  | [] => some s
  | a :: rest =>
    match step cfg s a with
    | none => none
    | some s1 => runSched cfg s1 rest

/-- Submitters whose operation is executing: called and not yet ended. -/
def executing {σ : Type} (s : Sys σ) : List Nat :=
  match s.consumer with
  | CPc.inOp i _ => [i]
  | _ => []

/-- The submitter whose closure the consumer is still inside after the
operation ended. -/
def leaving {σ : Type} (s : Sys σ) : Option Nat :=
  match s.consumer with
  | CPc.afterOp i _ => some i
  | CPc.exiting i _ => some i
  | CPc.unwinding i _ => some i
  | _ => none

/-- The operations of the listed submitters run one after another, in the
order listed, with nothing in between. -/
def runSeq {σ : Type} (reqs : Nat → Request (Env σ)) : List Nat → Env σ → Env σ
  | [], env => env
  | i :: rest, env => runSeq reqs rest ((reqs i).Func env).2

/-- Every one of the `n` calls of `Strand` has returned. -/
def allReturned {σ : Type} (cfg : Cfg σ) (s : Sys σ) : Prop :=
  ∀ i, i < cfg.n → ∃ e, (s.subs i).pc = Pc.returned e

/-- The operation of the scenario: add 1 to the shared integer, return nil. -/
def increment : Request (Env Nat) :=
  { Name := "incr", Func := fun env => (Outcome.ret none, { env with res := env.res + 1 }) }

/-- Two callers labelled "A" and "B", each incrementing the shared integer,
on a channel of capacity `cap`. -/
def twoIncrements (cap : Nat) : Cfg Nat :=
  { n := 2, cap := cap,
    reqs := fun i => { increment with Name := if i = 0 then "A" else "B" } }

/-- A schedule of the scenario on an unbuffered channel. -/
def schedAB : List Action :=
  [Action.send 0, Action.recv, Action.opEnd, Action.logs, Action.close,
   Action.send 1, Action.wake 0, Action.recv, Action.opEnd, Action.logs, Action.close,
   Action.wake 1]

/-- The value `err` holds once the call of `req.Func` has ended with the given
outcome: the returned value, or still nil after a panic. -/
def errOf : Outcome → GoError
  | Outcome.ret e => e
  | Outcome.panic _ => none

/-- Invariant of the interleaving model, for the submitters `cfg` started in
the environment `e0`. -/
structure Inv {σ : Type} (cfg : Cfg σ) (e0 : Env σ) (s : Sys σ) : Prop where
  acc : s.accepted = s.ran ++ executing s ++ s.queue
  nodup : s.accepted.Nodup
  lt : ∀ i, i ∈ s.accepted → i < cfg.n
  started : ∀ i, (s.subs i).pc = Pc.start ↔ i ∉ s.accepted
  notran : ∀ i, i ∉ s.ran →
    (s.subs i).done = false ∧ (s.subs i).err = none ∧ (s.subs i).invoked = 0 ∧
    (s.subs i).produced = none ∧ (s.subs i).closes = 0
  ran : ∀ i, i ∈ s.ran →
    (s.subs i).invoked = 1 ∧
    ∃ out, (s.subs i).produced = some out ∧ (s.subs i).err = errOf out
  open_ : ∀ i, leaving s = some i →
    i ∈ s.ran ∧ (s.subs i).done = false ∧ (s.subs i).closes = 0
  closed : ∀ i, i ∈ s.ran → leaving s ≠ some i →
    (s.subs i).done = true ∧ (s.subs i).closes = 1
  ret : ∀ i e, (s.subs i).pc = Pc.returned e → (s.subs i).done = true ∧ e = (s.subs i).err
  env : s.env = runSeq cfg.reqs s.ran e0
  prod : ∀ pre i post, s.ran = pre ++ i :: post →
    (s.subs i).produced = some ((cfg.reqs i).Func (runSeq cfg.reqs pre e0)).1

/-- The state the schedule `schedAB` leads the scenario to, on an unbuffered
channel, from the integer 0. -/
def finalAB : Sys Nat :=
  (runSched (twoIncrements 0) (init { now := 0, res := 0 } []) schedAB).getD
    (init { now := 0, res := 0 } [])

/-- The locals and surroundings of submitter `i`, as the closure it built sees
them. -/
def callOf {σ : Type} (s : Sys σ) (i : Nat) : Call σ :=
  { env := s.env, log := s.log, done := (s.subs i).done, err := (s.subs i).err,
    invoked := (s.subs i).invoked }

/-- The schedule that serves submitter `i` alone: its send, the consumer's
steps through its closure, its return. -/
def serve (i : Nat) : List Action :=
  [Action.send i, Action.recv, Action.opEnd, Action.logs, Action.close, Action.wake i]

/-- The schedule that serves the submitters `0 .. k-1` one after another. -/
def serveAll : Nat → List Action
  | 0 => []
  | k + 1 => serveAll k ++ serve k

/-- One caller whose operation panics with "boom", on an unbuffered channel. -/
def onePanics : Cfg Unit :=
  { n := 1, cap := 0, reqs := fun _ => { Name := "A", Func := opPanics "boom" } }

/-- The schedule that serves the caller of `onePanics`: no `logs` step, the
closure unwinds from the call of `req.Func` to its deferred close. -/
def schedPanic : List Action :=
  [Action.send 0, Action.recv, Action.opEnd, Action.close, Action.wake 0]

/-- The state `schedPanic` leads `onePanics` to. -/
def finalPanic : Sys Unit :=
  (runSched onePanics (init env0 []) schedPanic).getD (init env0 [])

/-! ## Sequential behaviour of one call -/

theorem StrandCanQuit_Func_eq {σ : Type} (req : Request (Env σ)) :
    StrandCanQuit.Func req = Strand.Func req := rfl

/-- The closure on an operation that returns `e`, with `done` still open. -/
theorem Func_ret {σ : Type} (req : Request (Env σ)) (s : Call σ) (e : GoError) (env1 : Env σ)
    (hf : req.Func s.env = (Outcome.ret e, env1)) (hd : s.done = false) :
    Strand.Func req s =
      (Outcome.ret e,
        { env := env1
          log := s.log ++ [⟨Level.Debug, "%s begin", [Arg.str req.Name]⟩]
            ++ (if e ≠ none then [⟨Level.Error, "%s error: %v", [Arg.str req.Name, Arg.err e]⟩]
                else [])
            ++ [⟨if Sub env1.now s.env.now > Second then Level.Warning else Level.Debug,
                 "%s took %s", [Arg.str req.Name, Arg.dur (Sub env1.now s.env.now)]⟩]
          done := true
          err := e
          invoked := s.invoked + 1 }) := by
  cases e with
  | none =>
    by_cases h : Sub env1.now s.env.now > Second <;>
      simp [Strand.Func, closeDone, logf, hf, hd, h]
  | some m =>
    by_cases h : Sub env1.now s.env.now > Second <;>
      simp [Strand.Func, closeDone, logf, hf, hd, h]

/-- The closure on an operation that panics with `v`, with `done` still open. -/
theorem Func_panic {σ : Type} (req : Request (Env σ)) (s : Call σ) (v : String) (env1 : Env σ)
    (hf : req.Func s.env = (Outcome.panic v, env1)) (hd : s.done = false) :
    Strand.Func req s =
      (Outcome.panic v,
        { env := env1
          log := s.log ++ [⟨Level.Debug, "%s begin", [Arg.str req.Name]⟩]
          done := true
          err := s.err
          invoked := s.invoked + 1 }) := by
  simp [Strand.Func, closeDone, logf, hf, hd]

/-- Each call of the closure calls `req.Func` exactly once, whatever the state
of `done` and however the operation ends: the counter goes up by one and the
environment left is the one a single run of `req.Func` leaves. -/
theorem Func_invoked_env {σ : Type} (req : Request (Env σ)) (s : Call σ) :
    (Strand.Func req s).2.invoked = s.invoked + 1 ∧
    (Strand.Func req s).2.env = (req.Func s.env).2 := by
  rcases hfs : req.Func s.env with ⟨o, env1⟩
  cases o with
  | ret e =>
    by_cases hd : s.done = true
    · by_cases hel : Sub env1.now s.env.now > Second <;>
        cases e <;> simp [Strand.Func, closeDone, logf, hfs, hd, hel]
    · by_cases hel : Sub env1.now s.env.now > Second <;>
        cases e <;> simp [Strand.Func, closeDone, logf, hfs, hd, hel]
  | panic v =>
    by_cases hd : s.done = true <;> simp [Strand.Func, closeDone, logf, hfs, hd]

/-- Calls of the closure never lower the counter of calls of `req.Func`. -/
theorem consume_invoked_le {σ : Type} (req : Request (Env σ)) (name : String) (k : Nat)
    (s : Call σ) :
    s.invoked ≤ (consume k ⟨name, Strand.Func req⟩ s).2.invoked := by
  induction k generalizing s with
  | zero => simp [consume]
  | succ k ih =>
    simp only [consume]
    rcases hF : Strand.Func req s with ⟨o, s1⟩
    have h1 : s1.invoked = s.invoked + 1 := by
      have h0 := (Func_invoked_env req s).1
      rw [hF] at h0
      exact h0
    cases o with
    | panic v => simp only; omega
    | ret e =>
      have h2 := ih s1
      simp only
      omega

/-- `Strand` returns only through `<-done`: when it returns, `done` is closed,
the send was taken, and the consumer has called the closure, hence
`req.Func`, at least once. -/
theorem Strand_result_some {σ : Type} (c : Queue) (req : Request (Env σ)) (env : Env σ)
    (log : List LogEntry) (e : GoError)
    (h : (Strand c req env log).result = some e) :
    (Strand c req env log).final.done = true ∧ 1 ≤ (Strand c req env log).final.invoked ∧
    1 ≤ c.invocations ∧ c.acceptAt ≠ none := by
  cases hacc : c.acceptAt with
  | none => simp [Strand, hacc] at h
  | some t =>
    cases hk : c.invocations with
    | zero => simp [Strand, hacc, hk, consume] at h
    | succ k =>
      simp only [Strand, hacc, hk] at h ⊢
      refine ⟨?_, ?_, by omega, by simp⟩
      · by_contra hd
        simp [hd] at h
      · simp only [consume]
        rcases hF : Strand.Func req
          { env := env, log := log, done := false, err := none, invoked := 0 } with ⟨o, s1⟩
        have h1 : s1.invoked = 0 + 1 := by
          have h0 := (Func_invoked_env req
            { env := env, log := log, done := false, err := none, invoked := 0 }).1
          rw [hF] at h0
          exact h0
        cases o with
        | panic v => simp only; omega
        | ret e1 =>
          have h2 := consume_invoked_le req req.Name k s1
          simp only
          omega

/-- Record of `Strand` when the send completes, the consumer calls `Func` once
and the operation returns `e`. -/
theorem Strand_run_ret {σ : Type} (c : Queue) (req : Request (Env σ)) (env env1 : Env σ)
    (log : List LogEntry) (t : Nat) (e : GoError)
    (hacc : c.acceptAt = some t) (honce : c.invocations = 1)
    (hf : req.Func env = (Outcome.ret e, env1)) :
    Strand c req env log =
      { result := some e
        sent := [⟨req.Name, Strand.Func req⟩]
        seen := [Outcome.ret e]
        final :=
          { env := env1
            log := log ++ [⟨Level.Debug, "%s begin", [Arg.str req.Name]⟩]
              ++ (if e ≠ none then [⟨Level.Error, "%s error: %v", [Arg.str req.Name, Arg.err e]⟩]
                  else [])
              ++ [⟨if Sub env1.now env.now > Second then Level.Warning else Level.Debug,
                   "%s took %s", [Arg.str req.Name, Arg.dur (Sub env1.now env.now)]⟩]
            done := true
            err := e
            invoked := 1 } } := by
  have h := Func_ret req { env := env, log := log, done := false, err := none, invoked := 0 }
    e env1 hf rfl
  simp only [Strand, hacc, honce, consume, h]
  simp

/-- Record of `Strand` when the send completes, the consumer calls `Func` once
and the operation panics with `v`. -/
theorem Strand_run_panic {σ : Type} (c : Queue) (req : Request (Env σ)) (env env1 : Env σ)
    (log : List LogEntry) (t : Nat) (v : String)
    (hacc : c.acceptAt = some t) (honce : c.invocations = 1)
    (hf : req.Func env = (Outcome.panic v, env1)) :
    Strand c req env log =
      { result := some none
        sent := [⟨req.Name, Strand.Func req⟩]
        seen := [Outcome.panic v]
        final :=
          { env := env1
            log := log ++ [⟨Level.Debug, "%s begin", [Arg.str req.Name]⟩]
            done := true
            err := none
            invoked := 1 } } := by
  have h := Func_panic req { env := env, log := log, done := false, err := none, invoked := 0 }
    v env1 hf rfl
  simp only [Strand, hacc, honce, consume, h]
  simp

/-- On the send case of its `select`, `StrandCanQuit` leaves the record `Strand`
leaves. -/
theorem StrandCanQuit_send {σ : Type} (quit : Signal) (pick : Bool) (c : Queue)
    (req : Request (Env σ)) (q : Signal) (quitErr : GoError) (env : Env σ)
    (log : List LogEntry) (hsend : select quit c.acceptAt pick = Branch.send) :
    StrandCanQuit quit pick c req q quitErr env log = Strand c req env log := by
  have hacc : ∃ t, c.acceptAt = some t := by
    cases hc : c.acceptAt with
    | none => cases quit <;> simp [select, hc] at hsend
    | some t => exact ⟨t, rfl⟩
  obtain ⟨t, ht⟩ := hacc
  rw [ht] at hsend
  simp only [StrandCanQuit, Strand, ht, hsend, StrandCanQuit_Func_eq]

/-- On the receive case of its `select`, `StrandCanQuit` returns `quitErr` and
touches nothing. -/
theorem StrandCanQuit_quit {σ : Type} (quit : Signal) (pick : Bool) (c : Queue)
    (req : Request (Env σ)) (q : Signal) (quitErr : GoError) (env : Env σ)
    (log : List LogEntry) (hquit : select quit c.acceptAt pick = Branch.quit) :
    StrandCanQuit quit pick c req q quitErr env log =
      { result := some quitErr, sent := [], seen := [],
        final := { env := env, log := log, done := false, err := none, invoked := 0 } } := by
  simp only [StrandCanQuit, hquit]

/-- Entries a call added, read off a final log that extends the initial one. -/
theorem emitted_append {σ : Type} (r : Run σ) (log new : List LogEntry)
    (h : r.final.log = log ++ new) : emitted r log = new := by
  simp [emitted, h]

/-! ## The interleaving model -/

theorem runSeq_append {σ : Type} (reqs : Nat → Request (Env σ)) (l1 l2 : List Nat)
    (env : Env σ) : runSeq reqs (l1 ++ l2) env = runSeq reqs l2 (runSeq reqs l1 env) := by
  induction l1 generalizing env with
  | nil => rfl
  | cons i rest ih => simp [runSeq, ih]

theorem Inv_init {σ : Type} (cfg : Cfg σ) (e0 : Env σ) (log : List LogEntry) :
    Inv cfg e0 (init e0 log) where
  acc := rfl
  nodup := List.nodup_nil
  lt := by intro i hi; cases hi
  started := by intro i; simp [init, Submitter.fresh]
  notran := by intro i _; simp [init, Submitter.fresh]
  ran := by intro i hi; cases hi
  open_ := by intro i hi; simp [init, leaving] at hi
  closed := by intro i hi; cases hi
  ret := by intro i e h; simp [init, Submitter.fresh] at h
  env := rfl
  prod := by intro pre i post h; simp [init] at h

theorem Inv_send {σ : Type} (cfg : Cfg σ) (e0 : Env σ) (s : Sys σ) (i : Nat)
    (h : Inv cfg e0 s) (hlt : i < cfg.n) (hpc : (s.subs i).pc = Pc.start) :
    Inv cfg e0 { s with
      subs := Function.update s.subs i { s.subs i with pc := Pc.waiting }
      queue := s.queue ++ [i]
      accepted := s.accepted ++ [i] } := by
  have hni : i ∉ s.accepted := (h.started i).mp hpc
  refine
    { acc := ?_, nodup := ?_, lt := ?_, started := ?_, notran := ?_, ran := ?_, open_ := ?_,
      closed := ?_, ret := ?_, env := h.env, prod := ?_ }
  · show s.accepted ++ [i] = s.ran ++ executing s ++ (s.queue ++ [i])
    rw [h.acc]; simp
  · show (s.accepted ++ [i]).Nodup
    exact List.nodup_append.mpr ⟨h.nodup, List.nodup_singleton i, by simpa using hni⟩
  · intro j hj
    have hj2 : j ∈ s.accepted ++ [i] := hj
    rcases List.mem_append.mp hj2 with hj3 | hj3
    · exact h.lt j hj3
    · simp at hj3; subst hj3; exact hlt
  · intro j
    have := h.started j
    by_cases hji : j = i
    · subst hji; simp
    · simpa [Function.update_noteq hji, hji] using this
  · intro j hj
    have := h.notran j hj
    by_cases hji : j = i
    · subst hji; simpa using this
    · simpa [Function.update_noteq hji] using this
  · intro j hj
    have := h.ran j hj
    by_cases hji : j = i
    · subst hji; simpa using this
    · simpa [Function.update_noteq hji] using this
  · intro j hj
    have := h.open_ j hj
    by_cases hji : j = i
    · subst hji; simpa using this
    · simpa [Function.update_noteq hji] using this
  · intro j hj hl
    have := h.closed j hj hl
    by_cases hji : j = i
    · subst hji; simpa using this
    · simpa [Function.update_noteq hji] using this
  · intro j e hj
    by_cases hji : j = i
    · subst hji; simp at hj
    · simp only [Function.update_noteq hji] at hj ⊢
      exact h.ret j e hj
  · intro pre j post hj
    have := h.prod pre j post hj
    by_cases hji : j = i
    · subst hji; simpa using this
    · simpa [Function.update_noteq hji] using this

theorem Inv_recv {σ : Type} (cfg : Cfg σ) (e0 : Env σ) (s : Sys σ) (i : Nat)
    (rest : List Nat) (log1 : List LogEntry) (t : Int)
    (h : Inv cfg e0 s) (hc : s.consumer = CPc.idle) (hq : s.queue = i :: rest) :
    Inv cfg e0 { s with queue := rest, log := log1, consumer := CPc.inOp i t } := by
  have hl : leaving s = none := by simp [leaving, hc]
  refine
    { acc := ?_, nodup := h.nodup, lt := h.lt, started := h.started, notran := h.notran,
      ran := h.ran, open_ := ?_, closed := ?_, ret := h.ret, env := h.env, prod := h.prod }
  · show s.accepted = s.ran ++ [i] ++ rest
    rw [h.acc, hq]; simp [executing, hc]
  · intro j hj
    simp [leaving] at hj
  · intro j hj _
    exact h.closed j hj (by simp [hl])

theorem Inv_opEnd {σ : Type} (cfg : Cfg σ) (e0 : Env σ) (s : Sys σ) (i : Nat) (t : Int)
    (out : Outcome) (env1 : Env σ) (x : Submitter) (c1 : CPc)
    (h : Inv cfg e0 s) (hc : s.consumer = CPc.inOp i t)
    (hf : (cfg.reqs i).Func s.env = (out, env1))
    (hpc : x.pc = (s.subs i).pc) (hdone : x.done = (s.subs i).done)
    (hcl : x.closes = (s.subs i).closes) (hinv : x.invoked = (s.subs i).invoked + 1)
    (hprod : x.produced = some out) (herr : x.err = errOf out)
    (hex : executing ({ s with consumer := c1 } : Sys σ) = [])
    (hlv : leaving ({ s with consumer := c1 } : Sys σ) = some i) :
    Inv cfg e0 { s with
      env := env1, subs := Function.update s.subs i x, consumer := c1, ran := s.ran ++ [i] } := by
  have hacc : s.accepted = s.ran ++ [i] ++ s.queue := by
    rw [h.acc]; simp [executing, hc]
  have hnd := h.nodup
  rw [hacc] at hnd
  have hnotin : i ∉ s.ran := by
    intro hmem
    have := (List.nodup_append.mp (List.nodup_append.mp hnd).1).2.2
    exact this hmem (List.mem_singleton_self i) 
  have hfresh := h.notran i hnotin
  have hl : leaving s = none := by simp [leaving, hc]
  refine
    { acc := ?_, nodup := h.nodup, lt := h.lt, started := ?_, notran := ?_, ran := ?_,
      open_ := ?_, closed := ?_, ret := ?_, env := ?_, prod := ?_ }
  · show s.accepted = s.ran ++ [i] ++ executing ({ s with consumer := c1 } : Sys σ) ++ s.queue
    rw [hex, hacc]; simp
  · intro j
    have := h.started j
    by_cases hji : j = i
    · subst hji; simpa [hpc] using this
    · simpa [Function.update_noteq hji] using this
  · intro j hj
    have hj2 : j ∉ s.ran ++ [i] := hj
    have hji : j ≠ i := by intro e; apply hj2; simp [e]
    have hj3 : j ∉ s.ran := by intro e; apply hj2; simp [e]
    simpa [Function.update_noteq hji] using h.notran j hj3
  · intro j hj
    have hj2 : j ∈ s.ran ++ [i] := hj
    by_cases hji : j = i
    · subst hji
      simp only [Function.update_same]
      exact ⟨by rw [hinv, hfresh.2.2.1], out, hprod, herr⟩
    · have hj3 : j ∈ s.ran := by
        rcases List.mem_append.mp hj2 with h1 | h1
        · exact h1
        · simp at h1; exact absurd h1 hji
      simpa [Function.update_noteq hji] using h.ran j hj3
  · intro j hj
    have hj2 : leaving ({ s with consumer := c1 } : Sys σ) = some j := hj
    rw [hlv] at hj2
    have hji : i = j := Option.some.inj hj2
    subst hji
    show i ∈ s.ran ++ [i] ∧ _
    simp only [Function.update_same]
    exact ⟨by simp, by rw [hdone, hfresh.1], by rw [hcl, hfresh.2.2.2.2]⟩
  · intro j hj hne
    have hj2 : j ∈ s.ran ++ [i] := hj
    have hne2 : leaving ({ s with consumer := c1 } : Sys σ) ≠ some j := hne
    rw [hlv] at hne2
    have hji : j ≠ i := by intro e; apply hne2; rw [e]
    have hj3 : j ∈ s.ran := by
      rcases List.mem_append.mp hj2 with h1 | h1
      · exact h1
      · simp at h1; exact absurd h1 hji
    simpa [Function.update_noteq hji] using h.closed j hj3 (by simp [hl])
  · intro j e hj
    by_cases hji : j = i
    · subst hji
      simp only [Function.update_same] at hj ⊢
      rw [hpc] at hj
      have := (h.ret j e hj).1
      rw [hfresh.1] at this
      cases this
    · simp only [Function.update_noteq hji] at hj ⊢
      exact h.ret j e hj
  · show env1 = runSeq cfg.reqs (s.ran ++ [i]) e0
    rw [runSeq_append, ← h.env]
    simp [runSeq, hf]
  · intro pre j post hj
    have hj2 : s.ran ++ [i] = pre ++ j :: post := hj
    rcases List.eq_nil_or_concat post with hp | ⟨post1, y, hp⟩
    · subst hp
      have h2 := List.append_inj' hj2 rfl
      have hji : i = j := by simpa using h2.2
      subst hji
      simp only [Function.update_same]
      rw [hprod, ← h2.1, ← h.env, hf]
    · subst hp
      have hj3 : s.ran ++ [i] = (pre ++ j :: post1) ++ [y] := by
        rw [hj2]; simp
      have h2 := List.append_inj' hj3 rfl
      have hjr : j ∈ s.ran := by rw [h2.1]; simp
      have hji : j ≠ i := by intro e; apply hnotin; rw [← e]; exact hjr
      simpa [Function.update_noteq hji] using h.prod pre j post1 h2.1

theorem Inv_logs {σ : Type} (cfg : Cfg σ) (e0 : Env σ) (s : Sys σ) (i : Nat) (t : Int)
    (e : GoError) (log1 : List LogEntry)
    (h : Inv cfg e0 s) (hc : s.consumer = CPc.afterOp i t) :
    Inv cfg e0 { s with log := log1, consumer := CPc.exiting i e } := by
  have hl : leaving s = some i := by simp [leaving, hc]
  have hx : executing s = [] := by simp [executing, hc]
  refine
    { acc := ?_, nodup := h.nodup, lt := h.lt, started := h.started, notran := h.notran,
      ran := h.ran, open_ := ?_, closed := ?_, ret := h.ret, env := h.env, prod := h.prod }
  · show s.accepted = s.ran ++ [] ++ s.queue
    rw [h.acc, hx]
  · intro j hj
    have hj2 : some i = some j := hj
    exact h.open_ j (by rw [hl, hj2])
  · intro j hj hne
    have hne2 : some i ≠ some j := hne
    exact h.closed j hj (by rw [hl]; exact hne2)

theorem Inv_close {σ : Type} (cfg : Cfg σ) (e0 : Env σ) (s : Sys σ) (i : Nat) (c1 : CPc)
    (h : Inv cfg e0 s) (hl : leaving s = some i) (hx : executing s = [])
    (hex : executing ({ s with consumer := c1 } : Sys σ) = [])
    (hlv : leaving ({ s with consumer := c1 } : Sys σ) = none) :
    Inv cfg e0 { s with
      subs := Function.update s.subs i
        { s.subs i with done := true, closes := (s.subs i).closes + 1 }
      consumer := c1 } := by
  have hop := h.open_ i hl
  refine
    { acc := ?_, nodup := h.nodup, lt := h.lt, started := ?_, notran := ?_, ran := ?_,
      open_ := ?_, closed := ?_, ret := ?_, env := h.env, prod := ?_ }
  · show s.accepted = s.ran ++ executing ({ s with consumer := c1 } : Sys σ) ++ s.queue
    rw [hex, h.acc, hx]
  · intro j
    have := h.started j
    by_cases hji : j = i
    · subst hji; simpa using this
    · simpa [Function.update_noteq hji] using this
  · intro j hj
    have hj2 : j ∉ s.ran := hj
    have hji : j ≠ i := by intro e; apply hj2; rw [e]; exact hop.1
    simpa [Function.update_noteq hji] using h.notran j hj2
  · intro j hj
    have := h.ran j hj
    by_cases hji : j = i
    · subst hji; simpa using this
    · simpa [Function.update_noteq hji] using this
  · intro j hj
    have hj2 : leaving ({ s with consumer := c1 } : Sys σ) = some j := hj
    rw [hlv] at hj2
    cases hj2
  · intro j hj _
    by_cases hji : j = i
    · subst hji; simp [hop.2.2]
    · have hne : leaving s ≠ some j := by
        rw [hl]; intro e; exact hji (Option.some.inj e).symm
      simpa [Function.update_noteq hji] using h.closed j hj hne
  · intro j e hj
    by_cases hji : j = i
    · subst hji
      simp only [Function.update_same] at hj ⊢
      exact ⟨trivial, (h.ret j e hj).2⟩
    · simp only [Function.update_noteq hji] at hj ⊢
      exact h.ret j e hj
  · intro pre j post hj
    have := h.prod pre j post hj
    by_cases hji : j = i
    · subst hji; simpa using this
    · simpa [Function.update_noteq hji] using this

theorem Inv_wake {σ : Type} (cfg : Cfg σ) (e0 : Env σ) (s : Sys σ) (i : Nat)
    (h : Inv cfg e0 s) (hpc : (s.subs i).pc = Pc.waiting) (hd : (s.subs i).done = true) :
    Inv cfg e0 { s with
      subs := Function.update s.subs i { s.subs i with pc := Pc.returned (s.subs i).err } } := by
  have hacc : i ∈ s.accepted := by
    by_contra hn
    have := (h.started i).mpr hn
    rw [hpc] at this
    cases this
  refine
    { acc := h.acc, nodup := h.nodup, lt := h.lt, started := ?_, notran := ?_, ran := ?_,
      open_ := ?_, closed := ?_, ret := ?_, env := h.env, prod := ?_ }
  · intro j
    have := h.started j
    by_cases hji : j = i
    · subst hji; simpa using hacc
    · simpa [Function.update_noteq hji] using this
  · intro j hj
    have := h.notran j hj
    by_cases hji : j = i
    · subst hji; simpa using this
    · simpa [Function.update_noteq hji] using this
  · intro j hj
    have := h.ran j hj
    by_cases hji : j = i
    · subst hji; simpa using this
    · simpa [Function.update_noteq hji] using this
  · intro j hj
    have := h.open_ j hj
    by_cases hji : j = i
    · subst hji; simpa using this
    · simpa [Function.update_noteq hji] using this
  · intro j hj hl
    have := h.closed j hj hl
    by_cases hji : j = i
    · subst hji; simpa using this
    · simpa [Function.update_noteq hji] using this
  · intro j e hj
    by_cases hji : j = i
    · subst hji
      simp only [Function.update_same] at hj ⊢
      exact ⟨hd, (Pc.returned.inj hj).symm⟩
    · simp only [Function.update_noteq hji] at hj ⊢
      exact h.ret j e hj
  · intro pre j post hj
    have := h.prod pre j post hj
    by_cases hji : j = i
    · subst hji; simpa using this
    · simpa [Function.update_noteq hji] using this

theorem Inv_step {σ : Type} (cfg : Cfg σ) (e0 : Env σ) (s s1 : Sys σ) (a : Action)
    (h : Inv cfg e0 s) (hs : step cfg s a = some s1) : Inv cfg e0 s1 := by
  cases a with
  | send i =>
    simp only [step] at hs
    split at hs
    · rename_i hg
      cases hs
      exact Inv_send cfg e0 s i h hg.1 hg.2.1
    · cases hs
  | recv =>
    simp only [step] at hs
    split at hs
    · rename_i i rest hc hq
      cases hs
      exact Inv_recv cfg e0 s i rest _ _ h hc hq
    · cases hs
  | opEnd =>
    simp only [step] at hs
    split at hs
    · rename_i i t hc
      have hacc : s.accepted = s.ran ++ [i] ++ s.queue := by
        rw [h.acc]; simp [executing, hc]
      have hnd := h.nodup
      rw [hacc] at hnd
      have hnotin : i ∉ s.ran := by
        intro hmem
        have := (List.nodup_append.mp (List.nodup_append.mp hnd).1).2.2
        exact this hmem (List.mem_singleton_self i)
      have hfresh := h.notran i hnotin
      split at hs
      · rename_i e env1 hf
        cases hs
        exact Inv_opEnd cfg e0 s i t (Outcome.ret e) env1 _ _ h hc hf rfl rfl rfl rfl rfl rfl
          rfl rfl
      · rename_i v env1 hf
        cases hs
        exact Inv_opEnd cfg e0 s i t (Outcome.panic v) env1 _ _ h hc hf rfl rfl rfl rfl rfl
          hfresh.2.1 rfl rfl
    · cases hs
  | logs =>
    simp only [step] at hs
    split at hs
    · rename_i i t hc
      cases hs
      exact Inv_logs cfg e0 s i t _ _ h hc
    · cases hs
  | close =>
    simp only [step] at hs
    split at hs
    · rename_i i e hc
      have hl : leaving s = some i := by simp [leaving, hc]
      have hx : executing s = [] := by simp [executing, hc]
      have hop := h.open_ i hl
      rw [if_neg (by simp [hop.2.1])] at hs
      cases hs
      exact Inv_close cfg e0 s i CPc.idle h hl hx rfl rfl
    · rename_i i v hc
      have hl : leaving s = some i := by simp [leaving, hc]
      have hx : executing s = [] := by simp [executing, hc]
      have hop := h.open_ i hl
      rw [if_neg (by simp [hop.2.1])] at hs
      cases hs
      exact Inv_close cfg e0 s i (CPc.dead v) h hl hx rfl rfl
    · cases hs
  | wake i =>
    simp only [step] at hs
    split at hs
    · rename_i hg
      cases hs
      exact Inv_wake cfg e0 s i h hg.1 hg.2
    · cases hs

theorem Inv_run {σ : Type} (cfg : Cfg σ) (e0 : Env σ) (sched : List Action) (s s1 : Sys σ)
    (h : Inv cfg e0 s) (hs : runSched cfg s sched = some s1) : Inv cfg e0 s1 := by
  induction sched generalizing s with
  | nil =>
    simp only [runSched] at hs
    cases hs
    exact h
  | cons a rest ih =>
    simp only [runSched] at hs
    split at hs
    · cases hs
    · rename_i s2 hstep
      exact ih s2 (Inv_step cfg e0 s s2 a h hstep) hs

/-- Every state a schedule reaches from the initial state satisfies the
invariant. -/
theorem Inv_reachable {σ : Type} (cfg : Cfg σ) (e0 : Env σ) (log : List LogEntry)
    (sched : List Action) (s : Sys σ)
    (hs : runSched cfg (init e0 log) sched = some s) : Inv cfg e0 s :=
  Inv_run cfg e0 sched (init e0 log) s (Inv_init cfg e0 log) hs

/-- Once every call has returned, every accepted request has run: the order of
acceptance is the order in which the operations ran, and it lists each of the
`n` submitters once. -/
theorem allReturned_ran {σ : Type} (cfg : Cfg σ) (e0 : Env σ) (s : Sys σ)
    (h : Inv cfg e0 s) (hall : allReturned cfg s) :
    s.ran = s.accepted ∧ s.accepted.Perm (List.range cfg.n) := by
  have hin : ∀ i, i < cfg.n → i ∈ s.ran := by
    intro i hi
    obtain ⟨e, he⟩ := hall i hi
    by_contra hn
    have h1 := (h.ret i e he).1
    rw [(h.notran i hn).1] at h1
    cases h1
  have hacc := h.acc
  have hnd := h.nodup
  rw [hacc, List.append_assoc] at hnd
  have hdisj := (List.nodup_append.mp hnd).2.2
  have htail : executing s ++ s.queue = [] := by
    rcases hx : executing s ++ s.queue with _ | ⟨j, tl⟩
    · rfl
    · have hj : j ∈ executing s ++ s.queue := by rw [hx]; simp
      have hj2 : j ∈ s.accepted := by
        rw [hacc, List.append_assoc]; exact List.mem_append_right _ hj
      exact absurd hj (fun hj3 => hdisj (hin j (h.lt j hj2)) hj3)
  have heq : s.ran = s.accepted := by
    rw [hacc, List.append_assoc, htail]; simp
  refine ⟨heq, ?_⟩
  refine (List.perm_ext_iff_of_nodup h.nodup (List.nodup_range cfg.n)).mpr ?_
  intro i
  constructor
  · intro hi; exact List.mem_range.mpr (h.lt i hi)
  · intro hi; rw [← heq]; exact hin i (List.mem_range.mp hi)

/-- Running increments one after another adds their number to the integer. -/
theorem runSeq_twoIncrements (cap : Nat) (l : List Nat) (env : Env Nat) :
    (runSeq (twoIncrements cap).reqs l env).res = env.res + l.length := by
  induction l generalizing env with
  | nil => simp [runSeq]
  | cons i rest ih =>
    simp only [runSeq, ih, List.length_cons]
    simp [twoIncrements, increment]
    omega

/-- The consumer's steps through a received closure are the closure of
`Strand`: on an operation that returns, the four steps leave the environment,
the logger and the locals of the submitter as `Strand.Func` leaves them, and
the consumer back at its receive. -/
theorem consumer_runs_Func_ret {σ : Type} (cfg : Cfg σ) (s : Sys σ) (i : Nat)
    (rest : List Nat) (e : GoError) (env1 : Env σ)
    (hc : s.consumer = CPc.idle) (hq : s.queue = i :: rest)
    (hd : (s.subs i).done = false)
    (hf : (cfg.reqs i).Func s.env = (Outcome.ret e, env1)) :
    ∃ s1, runSched cfg s [Action.recv, Action.opEnd, Action.logs, Action.close] = some s1 ∧
      Strand.Func (cfg.reqs i) (callOf s i) = (Outcome.ret e, callOf s1 i) ∧
      s1.consumer = CPc.idle ∧ s1.queue = rest ∧
      (∀ j, j ≠ i → s1.subs j = s.subs j) ∧ (s1.subs i).pc = (s.subs i).pc := by
  have hfr := Func_ret (cfg.reqs i) (callOf s i) e env1 hf hd
  rw [hfr]
  cases e with
  | none =>
    by_cases hel : Sub env1.now s.env.now > Second
    · refine ⟨_, by simp [runSched, step, hc, hq, hf, hd, hel]; rfl, ?_⟩
      simp [callOf, hel]
      intro j hj
      simp [Function.update_noteq hj]
    · refine ⟨_, by simp [runSched, step, hc, hq, hf, hd, hel]; rfl, ?_⟩
      simp [callOf, hel]
      intro j hj
      simp [Function.update_noteq hj]
  | some m =>
    by_cases hel : Sub env1.now s.env.now > Second
    · refine ⟨_, by simp [runSched, step, hc, hq, hf, hd, hel]; rfl, ?_⟩
      simp [callOf, hel]
      intro j hj
      simp [Function.update_noteq hj]
    · refine ⟨_, by simp [runSched, step, hc, hq, hf, hd, hel]; rfl, ?_⟩
      simp [callOf, hel]
      intro j hj
      simp [Function.update_noteq hj]

/-- On an operation that panics the consumer's three steps leave things as
`Strand.Func` leaves them, and the panic reaches the consumer. -/
theorem consumer_runs_Func_panic {σ : Type} (cfg : Cfg σ) (s : Sys σ) (i : Nat)
    (rest : List Nat) (v : String) (env1 : Env σ)
    (hc : s.consumer = CPc.idle) (hq : s.queue = i :: rest)
    (hd : (s.subs i).done = false)
    (hf : (cfg.reqs i).Func s.env = (Outcome.panic v, env1)) :
    ∃ s1, runSched cfg s [Action.recv, Action.opEnd, Action.close] = some s1 ∧
      Strand.Func (cfg.reqs i) (callOf s i) = (Outcome.panic v, callOf s1 i) ∧
      s1.consumer = CPc.dead v ∧ s1.queue = rest := by
  have hfr := Func_panic (cfg.reqs i) (callOf s i) v env1 hf hd
  rw [hfr]
  refine ⟨_, by simp [runSched, step, hc, hq, hf, hd]; rfl, ?_⟩
  simp [callOf]

theorem runSched_append {σ : Type} (cfg : Cfg σ) (s : Sys σ) (l1 l2 : List Action) :
    runSched cfg s (l1 ++ l2) = (runSched cfg s l1).bind (fun s1 => runSched cfg s1 l2) := by
  induction l1 generalizing s with
  | nil => rfl
  | cons a rest ih =>
    simp only [List.cons_append, runSched]
    cases step cfg s a with
    | none => rfl
    | some s1 => exact ih s1

/-- Serving one submitter from a quiet state: the six steps are enabled, the
call returns what its operation returned, and the state is quiet again. -/
theorem serve_completes {σ : Type} (cfg : Cfg σ) (s : Sys σ) (i : Nat) (e : GoError)
    (env1 : Env σ) (hlt : i < cfg.n) (hc : s.consumer = CPc.idle) (hq : s.queue = [])
    (hfresh : s.subs i = Submitter.fresh)
    (hf : (cfg.reqs i).Func s.env = (Outcome.ret e, env1)) :
    ∃ s1, runSched cfg s (serve i) = some s1 ∧ s1.consumer = CPc.idle ∧ s1.queue = [] ∧
      (s1.subs i).pc = Pc.returned e ∧ (∀ j, j ≠ i → s1.subs j = s.subs j) ∧
      s1.env = env1 := by
  have hsend : step cfg s (Action.send i) = some { s with
      subs := Function.update s.subs i { s.subs i with pc := Pc.waiting }
      queue := s.queue ++ [i]
      accepted := s.accepted ++ [i] } := by
    simp [step, hlt, hfresh, Submitter.fresh, hq, hc]
  obtain ⟨s2, hrun2, hfunc, hc2, hq2, hother, hpc2⟩ :=
    consumer_runs_Func_ret cfg { s with
      subs := Function.update s.subs i { s.subs i with pc := Pc.waiting }
      queue := s.queue ++ [i]
      accepted := s.accepted ++ [i] } i [] e env1 hc (by simp [hq])
      (by simp [hfresh, Submitter.fresh]) hf
  have hfr := Func_ret (cfg.reqs i) (callOf { s with
      subs := Function.update s.subs i { s.subs i with pc := Pc.waiting }
      queue := s.queue ++ [i]
      accepted := s.accepted ++ [i] } i) e env1 hf (by simp [callOf, hfresh, Submitter.fresh])
  rw [hfr] at hfunc
  have hcall := (Prod.mk.inj hfunc).2
  have hdone : (s2.subs i).done = true := by
    have := congrArg Call.done hcall
    simpa [callOf] using this.symm
  have herr : (s2.subs i).err = e := by
    have := congrArg Call.err hcall
    simpa [callOf] using this.symm
  have henv : s2.env = env1 := by
    have := congrArg Call.env hcall
    simpa [callOf] using this.symm
  have hpcw : (s2.subs i).pc = Pc.waiting := by
    rw [hpc2]; simp
  refine ⟨{ s2 with
      subs := Function.update s2.subs i { s2.subs i with pc := Pc.returned (s2.subs i).err } },
    ?_, hc2, hq2, by simp [herr], ?_, henv⟩
  · have hsplit : serve i = [Action.send i] ++
        ([Action.recv, Action.opEnd, Action.logs, Action.close] ++ [Action.wake i]) := rfl
    have hfirst : runSched cfg s [Action.send i] = some { s with
        subs := Function.update s.subs i { s.subs i with pc := Pc.waiting }
        queue := s.queue ++ [i]
        accepted := s.accepted ++ [i] } := by
      simp only [runSched, hsend]
    rw [hsplit, runSched_append, hfirst, Option.some_bind, runSched_append, hrun2,
      Option.some_bind]
    simp [runSched, step, hpcw, hdone]
  · intro j hj
    simp only [Function.update_noteq hj]
    rw [hother j hj]
    simp [Function.update_noteq hj]

/-- Every call can return: when the operations return, the schedule that
serves the `n` submitters one after another is enabled step by step and ends
with every call of `Strand` returned. -/
theorem serveAll_completes {σ : Type} (cfg : Cfg σ) (e0 : Env σ) (log : List LogEntry)
    (hret : ∀ i env, ∃ e, ((cfg.reqs i).Func env).1 = Outcome.ret e) :
    ∃ s, runSched cfg (init e0 log) (serveAll cfg.n) = some s ∧ allReturned cfg s := by
  have key : ∀ k, k ≤ cfg.n →
      ∃ s, runSched cfg (init e0 log) (serveAll k) = some s ∧
        s.consumer = CPc.idle ∧ s.queue = [] ∧
        (∀ i, i < k → ∃ e, (s.subs i).pc = Pc.returned e) ∧
        (∀ i, k ≤ i → s.subs i = Submitter.fresh) := by
    intro k
    induction k with
    | zero =>
      intro _
      exact ⟨init e0 log, rfl, rfl, rfl, fun i hi => absurd hi (Nat.not_lt_zero i),
        fun i _ => rfl⟩
    | succ k ih =>
      intro hk
      obtain ⟨s, hrun, hc, hq, hdone, hfresh⟩ := ih (by omega)
      obtain ⟨e, he⟩ := hret k s.env
      have hf : (cfg.reqs k).Func s.env = (Outcome.ret e, ((cfg.reqs k).Func s.env).2) := by
        rw [← he]
      obtain ⟨s1, hrun1, hc1, hq1, hpc1, hother, _⟩ :=
        serve_completes cfg s k e _ (by omega) hc hq (hfresh k (le_refl k)) hf
      refine ⟨s1, ?_, hc1, hq1, ?_, ?_⟩
      · show runSched cfg (init e0 log) (serveAll k ++ serve k) = some s1
        rw [runSched_append, hrun]
        exact hrun1
      · intro i hi
        by_cases hik : i = k
        · subst hik; exact ⟨e, hpc1⟩
        · rw [hother i hik]
          exact hdone i (by omega)
      · intro i hi
        rw [hother i (by omega)]
        exact hfresh i (by omega)
  obtain ⟨s, hrun, _, _, hdone, _⟩ := key cfg.n (le_refl _)
  exact ⟨s, hrun, fun i hi => hdone i hi⟩

/-- A closure at its deferred close after a return: the close step is enabled
and closes `done` for the first time. -/
theorem close_exiting {σ : Type} (cfg : Cfg σ) (e0 : Env σ) (s : Sys σ) (i : Nat)
    (e : GoError) (h : Inv cfg e0 s) (hc : s.consumer = CPc.exiting i e) :
    ∃ s1, runSched cfg s [Action.close] = some s1 ∧ (s1.subs i).closes = 1 := by
  have hl : leaving s = some i := by simp [leaving, hc]
  have hop := h.open_ i hl
  refine ⟨_, by simp [runSched, step, hc, hop.2.1]; rfl, ?_⟩
  simp [hop.2.2]

/-- A closure at its deferred close while unwinding from a panic: the close
step is enabled and closes `done` for the first time. -/
theorem close_unwinding {σ : Type} (cfg : Cfg σ) (e0 : Env σ) (s : Sys σ) (i : Nat)
    (v : String) (h : Inv cfg e0 s) (hc : s.consumer = CPc.unwinding i v) :
    ∃ s1, runSched cfg s [Action.close] = some s1 ∧ (s1.subs i).closes = 1 := by
  have hl : leaving s = some i := by simp [leaving, hc]
  have hop := h.open_ i hl
  refine ⟨_, by simp [runSched, step, hc, hop.2.1]; rfl, ?_⟩
  simp [hop.2.2]

/-- A closure whose operation has returned runs on to its deferred close. -/
theorem close_afterOp {σ : Type} (cfg : Cfg σ) (e0 : Env σ) (s : Sys σ) (i : Nat) (t : Int)
    (h : Inv cfg e0 s) (hc : s.consumer = CPc.afterOp i t) :
    ∃ s1, runSched cfg s [Action.logs, Action.close] = some s1 ∧ (s1.subs i).closes = 1 := by
  cases hst : step cfg s Action.logs with
  | none => simp [step, hc] at hst
  | some s2 =>
    have h2 := Inv_step cfg e0 s s2 Action.logs h hst
    have hc2 : s2.consumer = CPc.exiting i (s.subs i).err := by
      simp only [step, hc] at hst
      cases hst
      rfl
    obtain ⟨s1, hrun, hcl⟩ := close_exiting cfg e0 s2 i _ h2 hc2
    exact ⟨s1, by simp only [runSched, hst] at hrun ⊢; exact hrun, hcl⟩

/-- A closure inside the call of its operation runs on to its deferred close,
whether the operation returns or panics. -/
theorem close_inOp {σ : Type} (cfg : Cfg σ) (e0 : Env σ) (s : Sys σ) (i : Nat) (t : Int)
    (h : Inv cfg e0 s) (hc : s.consumer = CPc.inOp i t) :
    ∃ sched s1, runSched cfg s sched = some s1 ∧ (s1.subs i).closes = 1 := by
  cases hst : step cfg s Action.opEnd with
  | none =>
    simp only [step, hc] at hst
    split at hst <;> cases hst
  | some s2 =>
    have h2 := Inv_step cfg e0 s s2 Action.opEnd h hst
    have hc2 : s2.consumer = CPc.afterOp i t ∨ ∃ v, s2.consumer = CPc.unwinding i v := by
      simp only [step, hc] at hst
      split at hst
      · cases hst; exact Or.inl rfl
      · rename_i v _ _
        cases hst; exact Or.inr ⟨v, rfl⟩
    rcases hc2 with hc2 | ⟨v, hc2⟩
    · obtain ⟨s1, hrun, hcl⟩ := close_afterOp cfg e0 s2 i t h2 hc2
      exact ⟨[Action.opEnd, Action.logs, Action.close], s1,
        by simp only [runSched, hst] at hrun ⊢; exact hrun, hcl⟩
    · obtain ⟨s1, hrun, hcl⟩ := close_unwinding cfg e0 s2 i v h2 hc2
      exact ⟨[Action.opEnd, Action.close], s1,
        by simp only [runSched, hst] at hrun ⊢; exact hrun, hcl⟩

/-- A unit of work handed to the consumer always reaches its deferred close:
from any state in which the consumer is inside the closure of submitter `i`
there are steps of the consumer after which `done` has been closed exactly
once. -/
theorem closure_completes {σ : Type} (cfg : Cfg σ) (e0 : Env σ) (s : Sys σ) (i : Nat)
    (h : Inv cfg e0 s) (hin : executing s = [i] ∨ leaving s = some i) :
    ∃ sched s1, runSched cfg s sched = some s1 ∧ (s1.subs i).closes = 1 := by
  cases hc : s.consumer with
  | idle => simp [executing, leaving, hc] at hin
  | dead v => simp [executing, leaving, hc] at hin
  | inOp j t =>
    have hj : j = i := by simpa [executing, leaving, hc] using hin
    subst hj
    exact close_inOp cfg e0 s j t h hc
  | afterOp j t =>
    have hj : j = i := by simpa [executing, leaving, hc] using hin
    subst hj
    obtain ⟨s1, hrun, hcl⟩ := close_afterOp cfg e0 s j t h hc
    exact ⟨_, s1, hrun, hcl⟩
  | exiting j e =>
    have hj : j = i := by simpa [executing, leaving, hc] using hin
    subst hj
    obtain ⟨s1, hrun, hcl⟩ := close_exiting cfg e0 s j e h hc
    exact ⟨_, s1, hrun, hcl⟩
  | unwinding j v =>
    have hj : j = i := by simpa [executing, leaving, hc] using hin
    subst hj
    obtain ⟨s1, hrun, hcl⟩ := close_unwinding cfg e0 s j v h hc
    exact ⟨_, s1, hrun, hcl⟩

/-! ## The claims -/

/-- C1: for every label, every operation and every queue on which the send
completes and whose consumer calls the received `Func` exactly once, `Strand`
returns exactly the value its own operation returned: nil for nil, the same
error for an error. And when that call is one of any number of concurrent
calls on one queue (submitter `i` of an interleaving), the value it has
returned is the value its own `f` left, run after the operations accepted
before it: never one produced by another request. -/
theorem Strand_returns_own_outcome {σ : Type} (label : String)
    (f : Env σ → Outcome × Env σ) (c : Queue) (env : Env σ) (log : List LogEntry)
    (t : Nat) (e : GoError)
    (hacc : c.acceptAt = some t) (honce : c.invocations = 1)
    (hf : (f env).1 = Outcome.ret e) :
    (Strand c ⟨label, f⟩ env log).result = some e ∧
    ∀ (cfg : Cfg σ) (sched : List Action) (s : Sys σ) (i : Nat) (e2 : GoError),
      cfg.reqs i = ⟨label, f⟩ →
      runSched cfg (init env log) sched = some s →
      (s.subs i).pc = Pc.returned e2 →
      ∃ pre post, s.ran = pre ++ i :: post ∧
        e2 = errOf (f (runSeq cfg.reqs pre env)).1 := by
  have hf2 : (⟨label, f⟩ : Request (Env σ)).Func env = (Outcome.ret e, (f env).2) := by
    show f env = _
    rw [← hf]
  refine ⟨by rw [Strand_run_ret c ⟨label, f⟩ env (f env).2 log t e hacc honce hf2], ?_⟩
  intro cfg sched s i e2 hreq hs hpc
  have h := Inv_reachable cfg env log sched s hs
  have hr := h.ret i e2 hpc
  have hran : i ∈ s.ran := by
    by_contra hn
    have h1 := hr.1
    rw [(h.notran i hn).1] at h1
    cases h1
  obtain ⟨pre, post, hsplit⟩ := List.append_of_mem hran
  refine ⟨pre, post, hsplit, ?_⟩
  obtain ⟨out, hp, herr⟩ := (h.ran i hran).2
  have hp2 := h.prod pre i post hsplit
  rw [hp, hreq] at hp2
  rw [hr.2, herr, Option.some.inj hp2]

theorem Strand_returns_own_outcome_witness :
    readyOnce.acceptAt = some 0 ∧ readyOnce.invocations = 1 ∧
    (opTakes 5 (some "disk full") env0).1 = Outcome.ret (some "disk full") ∧
    (Strand readyOnce ⟨"A", opTakes 5 (some "disk full")⟩ env0 []).result
      = some (some "disk full") :=
  ⟨rfl, rfl, rfl,
    (Strand_returns_own_outcome "A" (opTakes 5 (some "disk full")) readyOnce env0 [] 0
      (some "disk full") rfl rfl rfl).1⟩

/-- C2: when the operation returns a failure `m`, the caller of `Strand` (and
of `StrandCanQuit` on its send case) receives exactly `m`, and the closure adds
exactly one error-level entry to the logger, whose arguments are the label and
`m`; when the operation returns nil no error-level entry is added. -/
theorem failure_returned_and_logged_once {σ : Type} (label : String)
    (f : Env σ → Outcome × Env σ) (c : Queue) (env : Env σ) (log : List LogEntry)
    (t : Nat) (e : GoError)
    (hacc : c.acceptAt = some t) (honce : c.invocations = 1)
    (hf : (f env).1 = Outcome.ret e) :
    ((Strand c ⟨label, f⟩ env log).result = some e ∧
      (∀ m, e = some m →
        atLevel Level.Error (emitted (Strand c ⟨label, f⟩ env log) log) =
          [⟨Level.Error, "%s error: %v", [Arg.str label, Arg.err (some m)]⟩]) ∧
      (e = none → atLevel Level.Error (emitted (Strand c ⟨label, f⟩ env log) log) = [])) ∧
    ∀ (quit q : Signal) (pick : Bool) (quitErr : GoError),
      select quit c.acceptAt pick = Branch.send →
      (StrandCanQuit quit pick c ⟨label, f⟩ q quitErr env log).result = some e ∧
      (∀ m, e = some m →
        atLevel Level.Error
            (emitted (StrandCanQuit quit pick c ⟨label, f⟩ q quitErr env log) log) =
          [⟨Level.Error, "%s error: %v", [Arg.str label, Arg.err (some m)]⟩]) ∧
      (e = none →
        atLevel Level.Error
            (emitted (StrandCanQuit quit pick c ⟨label, f⟩ q quitErr env log) log) = []) := by
  have hf2 : (⟨label, f⟩ : Request (Env σ)).Func env = (Outcome.ret e, (f env).2) := by
    show f env = _
    rw [← hf]
  have hrun := Strand_run_ret c ⟨label, f⟩ env (f env).2 log t e hacc honce hf2
  have hem := emitted_append (Strand c ⟨label, f⟩ env log) log _
    (by rw [hrun, List.append_assoc, List.append_assoc])
  have key : (Strand c ⟨label, f⟩ env log).result = some e ∧
      (∀ m, e = some m →
        atLevel Level.Error (emitted (Strand c ⟨label, f⟩ env log) log) =
          [⟨Level.Error, "%s error: %v", [Arg.str label, Arg.err (some m)]⟩]) ∧
      (e = none → atLevel Level.Error (emitted (Strand c ⟨label, f⟩ env log) log) = []) := by
    refine ⟨by rw [hrun], ?_, ?_⟩
    · intro m hm
      rw [hem, hm]
      by_cases h : Sub (f env).2.now env.now > Second <;> simp [atLevel, h]
    · intro hn
      rw [hem, hn]
      by_cases h : Sub (f env).2.now env.now > Second <;> simp [atLevel, h]
  refine ⟨key, ?_⟩
  intro quit q pick quitErr hsend
  rw [StrandCanQuit_send quit pick c ⟨label, f⟩ q quitErr env log hsend]
  exact key

theorem failure_returned_and_logged_once_witness :
    readyOnce.acceptAt = some 0 ∧ readyOnce.invocations = 1 ∧
    (opTakes 5 (some "disk full") env0).1 = Outcome.ret (some "disk full") ∧
    (Strand readyOnce ⟨"A", opTakes 5 (some "disk full")⟩ env0 []).result
      = some (some "disk full") ∧
    atLevel Level.Error
        (emitted (Strand readyOnce ⟨"A", opTakes 5 (some "disk full")⟩ env0 []) []) =
      [⟨Level.Error, "%s error: %v", [Arg.str "A", Arg.err (some "disk full")]⟩] :=
  have h := failure_returned_and_logged_once "A" (opTakes 5 (some "disk full")) readyOnce
    env0 [] 0 (some "disk full") rfl rfl rfl
  ⟨rfl, rfl, rfl, h.1.1, h.1.2.1 "disk full" rfl⟩

/-- C3 (refuted as stated): an operation measured at exactly one second gets
its "took" line at debug level, not at warning level. -/
theorem took_line_at_one_second_is_debug :
    Sub (opTakes Second none env0).2.now env0.now = Second ∧
    tookLines (emitted (Strand readyOnce ⟨"A", opTakes Second none⟩ env0 []) []) =
      [⟨Level.Debug, "%s took %s", [Arg.str "A", Arg.dur Second]⟩] := by
  have hrun := Strand_run_ret readyOnce ⟨"A", opTakes Second none⟩ env0
    (opTakes Second none env0).2 [] 0 none rfl rfl rfl
  have hd : Sub (opTakes Second none env0).2.now env0.now = Second := by decide
  refine ⟨hd, ?_⟩
  rw [emitted_append _ [] _ (by rw [hrun, List.append_assoc, List.append_assoc])]
  rw [hd]
  simp [tookLines]

/-- C3 (amended): with `d` the elapsed time the closure measures, the "took"
line is at warning level when `d` exceeds one second and at debug level when
`d` is at most one second; either way exactly one "took" line is added and its
arguments are the label and `d`. Holds for `Strand` and for `StrandCanQuit` on
its send case. -/
theorem took_line_level {σ : Type} (label : String)
    (f : Env σ → Outcome × Env σ) (c : Queue) (env : Env σ) (log : List LogEntry)
    (t : Nat) (e : GoError) (d : Int)
    (hacc : c.acceptAt = some t) (honce : c.invocations = 1)
    (hf : (f env).1 = Outcome.ret e) (hd : d = Sub (f env).2.now env.now) :
    ((d > Second → tookLines (emitted (Strand c ⟨label, f⟩ env log) log) =
        [⟨Level.Warning, "%s took %s", [Arg.str label, Arg.dur d]⟩]) ∧
      (d ≤ Second → tookLines (emitted (Strand c ⟨label, f⟩ env log) log) =
        [⟨Level.Debug, "%s took %s", [Arg.str label, Arg.dur d]⟩])) ∧
    ∀ (quit q : Signal) (pick : Bool) (quitErr : GoError),
      select quit c.acceptAt pick = Branch.send →
      (d > Second →
        tookLines (emitted (StrandCanQuit quit pick c ⟨label, f⟩ q quitErr env log) log) =
          [⟨Level.Warning, "%s took %s", [Arg.str label, Arg.dur d]⟩]) ∧
      (d ≤ Second →
        tookLines (emitted (StrandCanQuit quit pick c ⟨label, f⟩ q quitErr env log) log) =
          [⟨Level.Debug, "%s took %s", [Arg.str label, Arg.dur d]⟩]) := by
  have hf2 : (⟨label, f⟩ : Request (Env σ)).Func env = (Outcome.ret e, (f env).2) := by
    show f env = _
    rw [← hf]
  have hrun := Strand_run_ret c ⟨label, f⟩ env (f env).2 log t e hacc honce hf2
  have hem := emitted_append (Strand c ⟨label, f⟩ env log) log _
    (by rw [hrun, List.append_assoc, List.append_assoc])
  have key : (d > Second → tookLines (emitted (Strand c ⟨label, f⟩ env log) log) =
        [⟨Level.Warning, "%s took %s", [Arg.str label, Arg.dur d]⟩]) ∧
      (d ≤ Second → tookLines (emitted (Strand c ⟨label, f⟩ env log) log) =
        [⟨Level.Debug, "%s took %s", [Arg.str label, Arg.dur d]⟩]) := by
    subst hd
    constructor
    · intro h
      rw [hem]
      cases e <;> simp [tookLines, h]
    · intro h
      rw [hem]
      cases e <;> simp [tookLines, not_lt.mpr h]
  refine ⟨key, ?_⟩
  intro quit q pick quitErr hsend
  rw [StrandCanQuit_send quit pick c ⟨label, f⟩ q quitErr env log hsend]
  exact key

theorem took_line_level_witness :
    readyOnce.acceptAt = some 0 ∧ readyOnce.invocations = 1 ∧
    (opTakes (Second + 1) none env0).1 = Outcome.ret none ∧
    Second + 1 = Sub (opTakes (Second + 1) none env0).2.now env0.now ∧
    tookLines (emitted (Strand readyOnce ⟨"A", opTakes (Second + 1) none⟩ env0 []) []) =
      [⟨Level.Warning, "%s took %s", [Arg.str "A", Arg.dur (Second + 1)]⟩] :=
  ⟨rfl, rfl, rfl, by decide,
    (took_line_level "A" (opTakes (Second + 1) none) readyOnce env0 [] 0 none (Second + 1)
      rfl rfl rfl (by decide)).1.1 (by decide)⟩

/-- C4 (refuted as stated): with the signal closed before the call and a queue
ready to take the send at once, the `select` may take the send; then the
operation runs, a request is on the queue, entries are logged and the call
returns the operation's value, not `quitErr`. -/
theorem closed_signal_can_lose_the_race :
    (StrandCanQuit (some 0) false readyOnce ⟨"A", opTakes 5 (some "disk full")⟩ (some 0)
        (some "quit") env0 []).result = some (some "disk full") ∧
    (StrandCanQuit (some 0) false readyOnce ⟨"A", opTakes 5 (some "disk full")⟩ (some 0)
        (some "quit") env0 []).final.invoked = 1 ∧
    (StrandCanQuit (some 0) false readyOnce ⟨"A", opTakes 5 (some "disk full")⟩ (some 0)
        (some "quit") env0 []).sent.length = 1 ∧
    (StrandCanQuit (some 0) false readyOnce ⟨"A", opTakes 5 (some "disk full")⟩ (some 0)
        (some "quit") env0 []).final.log.length = 3 := by
  have hsend : select (some 0) readyOnce.acceptAt false = Branch.send := by decide
  rw [StrandCanQuit_send (some 0) false readyOnce _ (some 0) (some "quit") env0 [] hsend]
  rw [Strand_run_ret readyOnce ⟨"A", opTakes 5 (some "disk full")⟩ env0
    (opTakes 5 (some "disk full") env0).2 [] 0 (some "disk full") rfl rfl rfl]
  simp

/-- C4 (amended): when the signal the `select` receives from is closed before
the call begins and the `select` takes that case (it must when the queue is not
ready at once; it may when it is), the call returns `quitErr`, the operation is
never called, no request is placed on the queue and nothing is logged. -/
theorem closed_signal_returns_quitErr {σ : Type} (quit : Signal) (pick : Bool) (c : Queue)
    (req : Request (Env σ)) (q : Signal) (quitErr : GoError) (env : Env σ)
    (log : List LogEntry)
    (hclosed : quit = some 0) (hrace : c.acceptAt = some 0 → pick = true) :
    (StrandCanQuit quit pick c req q quitErr env log).result = some quitErr ∧
    (StrandCanQuit quit pick c req q quitErr env log).sent = [] ∧
    (StrandCanQuit quit pick c req q quitErr env log).seen = [] ∧
    (StrandCanQuit quit pick c req q quitErr env log).final.invoked = 0 ∧
    (StrandCanQuit quit pick c req q quitErr env log).final.env = env ∧
    (StrandCanQuit quit pick c req q quitErr env log).final.log = log := by
  have hq : select quit c.acceptAt pick = Branch.quit := by
    subst hclosed
    cases hc : c.acceptAt with
    | none => simp [select]
    | some b =>
      cases b with
      | zero => simp [select, hrace hc]
      | succ n => simp [select]
  rw [StrandCanQuit_quit quit pick c req q quitErr env log hq]
  simp

theorem closed_signal_returns_quitErr_witness :
    (some 0 : Signal) = some 0 ∧ (readyOnce.acceptAt = some 0 → true = true) ∧
    (StrandCanQuit (some 0) true readyOnce ⟨"A", opTakes 5 none⟩ (some 0) (some "quit")
        env0 []).result = some (some "quit") ∧
    (StrandCanQuit (some 0) true readyOnce ⟨"A", opTakes 5 none⟩ (some 0) (some "quit")
        env0 []).final.invoked = 0 :=
  have h := closed_signal_returns_quitErr (some 0) true readyOnce
    ⟨"A", opTakes 5 none⟩ (some 0) (some "quit") env0 [] rfl (fun _ => rfl)
  ⟨rfl, fun _ => rfl, h.1, h.2.2.2.1⟩

/-- C5 (the code reads `quit`, not its parameter `q`): with `q` closed before
the call, the queue never accepting and `quit` never closed, the call blocks for
ever instead of returning `quitErr`; with the same `q` and `quit` closed it
returns `quitErr`; and its record never depends on `q`. -/
theorem StrandCanQuit_ignores_q :
    (StrandCanQuit none false neverAccepts ⟨"A", opTakes 5 none⟩ (some 0) (some "quit")
        env0 []).result = none ∧
    (StrandCanQuit (some 0) false neverAccepts ⟨"A", opTakes 5 none⟩ (some 0) (some "quit")
        env0 []).result = some (some "quit") ∧
    (StrandCanQuit (some 0) false neverAccepts ⟨"A", opTakes 5 none⟩ none (some "quit")
        env0 []).result = some (some "quit") ∧
    ∀ (σ : Type) (quit : Signal) (pick : Bool) (c : Queue) (req : Request (Env σ))
      (q1 q2 : Signal) (quitErr : GoError) (env : Env σ) (log : List LogEntry),
      StrandCanQuit quit pick c req q1 quitErr env log =
        StrandCanQuit quit pick c req q2 quitErr env log :=
  ⟨rfl, rfl, rfl, fun _ _ _ _ _ _ _ _ _ _ => rfl⟩

/-- C6: whenever the `select` of `StrandCanQuit` takes the send, the call is
`Strand` on the same logger, queue and request: the request placed on the
queue, the entries logged, the state left and the value returned are identical,
whatever the signals, the tie-break and `quitErr` are. -/
theorem StrandCanQuit_handoff_eq_Strand {σ : Type} (quit : Signal) (pick : Bool) (c : Queue)
    (req : Request (Env σ)) (q : Signal) (quitErr : GoError) (env : Env σ)
    (log : List LogEntry) (hsend : select quit c.acceptAt pick = Branch.send) :
    StrandCanQuit quit pick c req q quitErr env log = Strand c req env log ∧
    ∀ (quit2 q2 : Signal) (pick2 : Bool) (quitErr2 : GoError),
      select quit2 c.acceptAt pick2 = Branch.send →
      StrandCanQuit quit2 pick2 c req q2 quitErr2 env log =
        StrandCanQuit quit pick c req q quitErr env log := by
  refine ⟨StrandCanQuit_send quit pick c req q quitErr env log hsend, ?_⟩
  intro quit2 q2 pick2 quitErr2 hsend2
  rw [StrandCanQuit_send quit pick c req q quitErr env log hsend,
    StrandCanQuit_send quit2 pick2 c req q2 quitErr2 env log hsend2]

theorem StrandCanQuit_handoff_eq_Strand_witness :
    select (some 7) readyOnce.acceptAt true = Branch.send ∧
    StrandCanQuit (some 7) true readyOnce ⟨"A", opTakes 5 (some "disk full")⟩ (some 7)
        (some "quit") env0 [] =
      Strand readyOnce ⟨"A", opTakes 5 (some "disk full")⟩ env0 [] :=
  ⟨by decide,
    (StrandCanQuit_handoff_eq_Strand (some 7) true readyOnce
      ⟨"A", opTakes 5 (some "disk full")⟩ (some 7) (some "quit") env0 [] (by decide)).1⟩

/-- C7 (refuted as stated): for an operation that panics with "boom" the
deferred close fires the signal although the operation never returned and no
outcome was written: in the interleaving the caller has returned nil with
`done` closed, its operation called once and ended by the panic, `err` still
nil; and `Strand` itself returns nil with `done` closed and `err` unassigned. -/
theorem signal_fires_after_panic :
    runSched onePanics (init env0 []) schedPanic = some finalPanic ∧
    (finalPanic.subs 0).pc = Pc.returned none ∧
    (finalPanic.subs 0).done = true ∧
    (finalPanic.subs 0).closes = 1 ∧
    (finalPanic.subs 0).invoked = 1 ∧
    (finalPanic.subs 0).produced = some (Outcome.panic "boom") ∧
    (finalPanic.subs 0).err = none ∧
    (Strand readyOnce (onePanics.reqs 0) env0 []).result = some none ∧
    (Strand readyOnce (onePanics.reqs 0) env0 []).final.done = true ∧
    (Strand readyOnce (onePanics.reqs 0) env0 []).final.err = none := by
  refine ⟨rfl, rfl, rfl, rfl, rfl, rfl, rfl, ?_⟩
  rw [Strand_run_panic readyOnce (onePanics.reqs 0) env0 env0 [] 0 "boom" rfl rfl rfl]
  simp

/-- C7 (amended): `Strand` never returns before the call of its operation has
ended. In every state any interleaving reaches, for every call `i` of `Strand`:
`done` is closed at most once, exactly when the count is 1, and it has been
closed once the consumer has left the closure of an accepted request; `done`
is closed only after the operation has been called exactly once and that call
has ended: either it returned `e` and `e` has been written to `err`, or it
panicked and `err` is still nil; a call that has returned found `done` closed,
its operation called exactly once, and returned the `e` its operation returned,
or nil when it panicked; a request the consumer is inside always reaches its
deferred close, which closes `done` exactly once. And the function `Strand`
returns only after `done` is closed, the send was taken and the consumer has
called the closure; with a consumer that calls it once, the operation has been
called exactly once and `Strand` returns the `e` it returned, or nil when it
panicked. -/
theorem Strand_returns_after_operation {σ : Type} (cfg : Cfg σ) (e0 : Env σ)
    (log : List LogEntry) (sched : List Action) (s : Sys σ) (i : Nat)
    (hs : runSched cfg (init e0 log) sched = some s) :
    (s.subs i).closes ≤ 1 ∧ (s.subs i).invoked ≤ 1 ∧
    ((s.subs i).done = true ↔ (s.subs i).closes = 1) ∧
    (i ∈ s.accepted → i ∉ s.queue → i ∉ executing s → leaving s ≠ some i →
      (s.subs i).closes = 1) ∧
    ((s.subs i).done = true →
      (s.subs i).invoked = 1 ∧
      ((∃ e, (s.subs i).produced = some (Outcome.ret e) ∧ (s.subs i).err = e) ∨
        (∃ v, (s.subs i).produced = some (Outcome.panic v) ∧ (s.subs i).err = none))) ∧
    (∀ e, (s.subs i).pc = Pc.returned e →
      (s.subs i).done = true ∧ (s.subs i).invoked = 1 ∧
      ((s.subs i).produced = some (Outcome.ret e) ∨
        (∃ v, (s.subs i).produced = some (Outcome.panic v) ∧ e = none))) ∧
    ((executing s = [i] ∨ leaving s = some i) →
      ∃ sched2 s2, runSched cfg s sched2 = some s2 ∧ (s2.subs i).closes = 1) ∧
    (∀ (c : Queue) (e : GoError), (Strand c (cfg.reqs i) e0 log).result = some e →
      (Strand c (cfg.reqs i) e0 log).final.done = true ∧
      1 ≤ (Strand c (cfg.reqs i) e0 log).final.invoked ∧
      1 ≤ c.invocations ∧ c.acceptAt ≠ none ∧
      (c.invocations = 1 →
        (Strand c (cfg.reqs i) e0 log).final.invoked = 1 ∧
        (((cfg.reqs i).Func e0).1 = Outcome.ret e ∨
          (∃ v, ((cfg.reqs i).Func e0).1 = Outcome.panic v ∧ e = none)))) := by
  have h := Inv_reachable cfg e0 log sched s hs
  have hdone : (s.subs i).done = true → i ∈ s.ran := by
    intro hd
    by_contra hn
    rw [(h.notran i hn).1] at hd
    cases hd
  have hprod : ∀ out, (s.subs i).produced = some out → (s.subs i).err = errOf out →
      ((∃ e, (s.subs i).produced = some (Outcome.ret e) ∧ (s.subs i).err = e) ∨
        (∃ v, (s.subs i).produced = some (Outcome.panic v) ∧ (s.subs i).err = none)) := by
    intro out hp herr
    cases out with
    | ret e => exact Or.inl ⟨e, hp, herr⟩
    | panic v => exact Or.inr ⟨v, hp, herr⟩
  have hstrand : ∀ (c : Queue) (e : GoError),
      (Strand c (cfg.reqs i) e0 log).result = some e →
      (Strand c (cfg.reqs i) e0 log).final.done = true ∧
      1 ≤ (Strand c (cfg.reqs i) e0 log).final.invoked ∧
      1 ≤ c.invocations ∧ c.acceptAt ≠ none ∧
      (c.invocations = 1 →
        (Strand c (cfg.reqs i) e0 log).final.invoked = 1 ∧
        (((cfg.reqs i).Func e0).1 = Outcome.ret e ∨
          (∃ v, ((cfg.reqs i).Func e0).1 = Outcome.panic v ∧ e = none))) := by
    intro c e hres
    have h1 := Strand_result_some c (cfg.reqs i) e0 log e hres
    refine ⟨h1.1, h1.2.1, h1.2.2.1, h1.2.2.2, ?_⟩
    intro honce
    obtain ⟨t, hacc⟩ := Option.ne_none_iff_exists'.mp h1.2.2.2
    rcases hf : (cfg.reqs i).Func e0 with ⟨o, env1⟩
    cases o with
    | ret e1 =>
      rw [Strand_run_ret c (cfg.reqs i) e0 env1 log t e1 hacc honce hf] at hres ⊢
      have he : e1 = e := Option.some.inj hres
      exact ⟨rfl, Or.inl (by rw [he])⟩
    | panic v =>
      rw [Strand_run_panic c (cfg.reqs i) e0 env1 log t v hacc honce hf] at hres ⊢
      have he : none = e := Option.some.inj hres
      exact ⟨rfl, Or.inr ⟨v, rfl, he.symm⟩⟩
  have hlive := closure_completes cfg e0 s i h
  by_cases hr : i ∈ s.ran
  · have h1 := h.ran i hr
    obtain ⟨out, hp, herr⟩ := h1.2
    by_cases hl : leaving s = some i
    · have h2 := h.open_ i hl
      refine ⟨by omega, by omega, by simp [h2.2.1, h2.2.2], ?_,
        fun _ => ⟨h1.1, hprod out hp herr⟩, ?_, hlive, hstrand⟩
      · intro _ _ _ hne; exact absurd hl hne
      · intro e he
        have h3 := (h.ret i e he).1
        rw [h2.2.1] at h3
        cases h3
    · have h2 := h.closed i hr hl
      refine ⟨by omega, by omega, by simp [h2.1, h2.2], fun _ _ _ _ => h2.2,
        fun _ => ⟨h1.1, hprod out hp herr⟩, ?_, hlive, hstrand⟩
      intro e he
      have he2 := (h.ret i e he).2
      refine ⟨h2.1, h1.1, ?_⟩
      cases out with
      | ret e1 =>
        have : e = e1 := by rw [he2, herr]; rfl
        exact Or.inl (by rw [this]; exact hp)
      | panic v =>
        have : e = none := by rw [he2, herr]; rfl
        exact Or.inr ⟨v, hp, this⟩
  · have h1 := h.notran i hr
    refine ⟨by omega, by omega, by simp [h1.1, h1.2.2.2.2], ?_, ?_, ?_, hlive, hstrand⟩
    · intro hacc hq hx _
      rw [h.acc] at hacc
      simp at hacc
      rcases hacc with h3 | h3 | h3
      · exact absurd h3 hr
      · exact absurd h3 hx
      · exact absurd h3 hq
    · intro hd; exact absurd (hdone hd) hr
    · intro e he; exact absurd (hdone (h.ret i e he).1) hr

theorem Strand_returns_after_operation_witness :
    runSched (twoIncrements 0) (init { now := 0, res := 0 } []) schedAB = some finalAB ∧
    (finalAB.subs 0).pc = Pc.returned none ∧
    (finalAB.subs 0).closes = 1 ∧
    (finalAB.subs 0).invoked = 1 ∧
    ((finalAB.subs 0).produced = some (Outcome.ret none) ∨
      ∃ v, (finalAB.subs 0).produced = some (Outcome.panic v) ∧ (none : GoError) = none) :=
  have h := Strand_returns_after_operation (twoIncrements 0) { now := 0, res := 0 } []
    schedAB finalAB 0 rfl
  ⟨rfl, rfl, h.2.2.1.mp (h.2.2.2.2.2.1 none rfl).1, (h.2.2.2.2.2.1 none rfl).2.1,
    (h.2.2.2.2.2.1 none rfl).2.2⟩

/-- C8 (refuted as stated): an operation that panics with "boom" makes the
closure hand the panic to the consumer, and the caller, released by the deferred
close, returns nil. -/
theorem panic_reaches_consumer :
    (Strand readyOnce ⟨"A", opPanics "boom"⟩ env0 []).seen = [Outcome.panic "boom"] ∧
    (Strand readyOnce ⟨"A", opPanics "boom"⟩ env0 []).result = some none := by
  rw [Strand_run_panic readyOnce ⟨"A", opPanics "boom"⟩ env0 env0 [] 0 "boom" rfl rfl rfl]
  simp

/-- C8 (amended): for every operation that panics when called, the closure
built by `Strand` does not contain the fault: after logging "begin" it hands
the same panic to the consumer that called it, logging neither an error nor a
"took" line; the deferred close still closes `done`, and `err` is left
unassigned, so the released caller returns nil. -/
theorem panic_not_contained {σ : Type} (label : String) (f : Env σ → Outcome × Env σ)
    (c : Queue) (env : Env σ) (log : List LogEntry) (t : Nat) (v : String)
    (hacc : c.acceptAt = some t) (honce : c.invocations = 1)
    (hf : (f env).1 = Outcome.panic v) :
    (Strand c ⟨label, f⟩ env log).seen = [Outcome.panic v] ∧
    (Strand c ⟨label, f⟩ env log).final.log =
      log ++ [⟨Level.Debug, "%s begin", [Arg.str label]⟩] ∧
    (Strand c ⟨label, f⟩ env log).final.done = true ∧
    (Strand c ⟨label, f⟩ env log).final.err = none ∧
    (Strand c ⟨label, f⟩ env log).result = some none := by
  have hf2 : (⟨label, f⟩ : Request (Env σ)).Func env = (Outcome.panic v, (f env).2) := by
    show f env = _
    rw [← hf]
  rw [Strand_run_panic c ⟨label, f⟩ env (f env).2 log t v hacc honce hf2]
  simp

theorem panic_not_contained_witness :
    readyOnce.acceptAt = some 0 ∧ readyOnce.invocations = 1 ∧
    (opPanics "boom" env0).1 = Outcome.panic "boom" ∧
    (Strand readyOnce ⟨"B", opPanics "boom"⟩ env0 []).seen = [Outcome.panic "boom"] :=
  ⟨rfl, rfl, rfl,
    (panic_not_contained "B" (opPanics "boom") readyOnce env0 [] 0 "boom" rfl rfl rfl).1⟩

/-- C9: for every number `n` of goroutines calling `Strand` on one queue
drained by one sequential consumer, in every state any interleaving reaches:
at most one operation is executing; the operations that have ended are a
prefix of the order of acceptance onto the queue, the environment is the one
left by running them one after another in that order, and each of them
produced what it produces when run in that order; once every call has
returned, the order of acceptance lists every submitter once and the final
environment is the result of running all the operations in that order. In
particular two callers each incrementing an integer that starts at 0 leave it
equal to 2, whatever the interleaving and the capacity of the channel. -/
theorem serialized_execution {σ : Type} (cfg : Cfg σ) (e0 : Env σ) (log : List LogEntry)
    (sched : List Action) (s : Sys σ)
    (hs : runSched cfg (init e0 log) sched = some s) :
    (executing s).length ≤ 1 ∧
    s.ran <+: s.accepted ∧
    s.env = runSeq cfg.reqs s.ran e0 ∧
    (∀ pre i post, s.ran = pre ++ i :: post →
      (s.subs i).produced = some ((cfg.reqs i).Func (runSeq cfg.reqs pre e0)).1) ∧
    (allReturned cfg s →
      s.accepted.Perm (List.range cfg.n) ∧ s.env = runSeq cfg.reqs s.accepted e0) ∧
    (∀ (cap : Nat) (now : Int) (log2 : List LogEntry) (sched2 : List Action) (s2 : Sys Nat),
      runSched (twoIncrements cap) (init { now := now, res := 0 } log2) sched2 = some s2 →
      allReturned (twoIncrements cap) s2 → s2.env.res = 2) := by
  have h := Inv_reachable cfg e0 log sched s hs
  refine ⟨?_, ?_, h.env, h.prod, ?_, ?_⟩
  · unfold executing
    split <;> simp
  · exact ⟨executing s ++ s.queue, by rw [h.acc, List.append_assoc]⟩
  · intro hall
    have h2 := allReturned_ran cfg e0 s h hall
    exact ⟨h2.2, by rw [← h2.1]; exact h.env⟩
  · intro cap now log2 sched2 s2 hs2 hall
    have hi := Inv_reachable (twoIncrements cap) { now := now, res := 0 } log2 sched2 s2 hs2
    have h2 := allReturned_ran (twoIncrements cap) _ s2 hi hall
    rw [hi.env, h2.1, runSeq_twoIncrements, h2.2.length_eq]
    simp [twoIncrements]

theorem serialized_execution_witness :
    runSched (twoIncrements 0) (init { now := 0, res := 0 } []) schedAB = some finalAB ∧
    (executing finalAB).length ≤ 1 ∧
    finalAB.accepted = [0, 1] ∧
    finalAB.env.res = 2 :=
  have h := serialized_execution (twoIncrements 0) { now := 0, res := 0 } [] schedAB finalAB rfl
  ⟨rfl, h.1, rfl,
    h.2.2.2.2.2 0 0 [] schedAB finalAB rfl (by
      intro i hi
      have hi2 : i < 2 := hi
      interval_cases i
      · exact ⟨none, rfl⟩
      · exact ⟨none, rfl⟩)⟩

/-- C10 (refuted as stated): for an operation that panics with "boom" the
`Func` of the one request placed on the queue does not return an outcome to
the consumer, it hands it the panic, while the submitting caller is delivered
nil; so for `Strand` and for `StrandCanQuit` on its send case. -/
theorem panic_to_consumer_nil_to_caller :
    (Strand readyOnce ⟨"B", opPanics "boom"⟩ env0 []).sent.length = 1 ∧
    (Strand readyOnce ⟨"B", opPanics "boom"⟩ env0 []).seen = [Outcome.panic "boom"] ∧
    (Strand readyOnce ⟨"B", opPanics "boom"⟩ env0 []).result = some none ∧
    select none readyOnce.acceptAt false = Branch.send ∧
    (StrandCanQuit none false readyOnce ⟨"B", opPanics "boom"⟩ none (some "quit")
        env0 []).seen = [Outcome.panic "boom"] ∧
    (StrandCanQuit none false readyOnce ⟨"B", opPanics "boom"⟩ none (some "quit")
        env0 []).result = some none := by
  have hsend : select none readyOnce.acceptAt false = Branch.send := by decide
  rw [StrandCanQuit_send none false readyOnce _ none (some "quit") env0 [] hsend]
  rw [Strand_run_panic readyOnce ⟨"B", opPanics "boom"⟩ env0 env0 [] 0 "boom" rfl rfl rfl]
  simp [hsend]

/-- C10 (amended): every call of `Strand` (once its send completes) and every
call of `StrandCanQuit` that takes its send case places exactly one request on
the queue; the request carries the caller's `Name` unchanged; each call of its
`Func` calls the caller's operation exactly once. When the operation returns
`e`, `Func` hands `e` back to the consumer, leaves `e` in `err` and closes
`done`, so with a consumer that calls it once the consumer and the submitting
caller get the same `e`. When the operation panics with `v`, `Func` hands the
panic `v` to the consumer, leaves `err` as it was and closes `done`, so the
consumer gets the panic and the submitting caller gets nil. -/
theorem one_request_wrapping_the_operation {σ : Type} (label : String)
    (f : Env σ → Outcome × Env σ) (c : Queue) (env : Env σ) (log : List LogEntry)
    (t : Nat) (quit q : Signal) (pick : Bool) (quitErr : GoError)
    (hacc : c.acceptAt = some t) (hsend : select quit c.acceptAt pick = Branch.send) :
    ∃ r : Request (Call σ),
      (Strand c ⟨label, f⟩ env log).sent = [r] ∧
      (StrandCanQuit quit pick c ⟨label, f⟩ q quitErr env log).sent = [r] ∧
      r.Name = label ∧
      (∀ s : Call σ, (r.Func s).2.invoked = s.invoked + 1 ∧ (r.Func s).2.env = (f s.env).2) ∧
      (∀ (s : Call σ) (e : GoError), s.done = false → (f s.env).1 = Outcome.ret e →
        (r.Func s).1 = Outcome.ret e ∧ (r.Func s).2.err = e ∧ (r.Func s).2.done = true) ∧
      (∀ (s : Call σ) (v : String), s.done = false → (f s.env).1 = Outcome.panic v →
        (r.Func s).1 = Outcome.panic v ∧ (r.Func s).2.err = s.err ∧
        (r.Func s).2.done = true) ∧
      (∀ e : GoError, c.invocations = 1 → (f env).1 = Outcome.ret e →
        (Strand c ⟨label, f⟩ env log).seen = [Outcome.ret e] ∧
        (Strand c ⟨label, f⟩ env log).result = some e ∧
        (StrandCanQuit quit pick c ⟨label, f⟩ q quitErr env log).seen = [Outcome.ret e] ∧
        (StrandCanQuit quit pick c ⟨label, f⟩ q quitErr env log).result = some e) ∧
      (∀ v : String, c.invocations = 1 → (f env).1 = Outcome.panic v →
        (Strand c ⟨label, f⟩ env log).seen = [Outcome.panic v] ∧
        (Strand c ⟨label, f⟩ env log).result = some none ∧
        (StrandCanQuit quit pick c ⟨label, f⟩ q quitErr env log).seen = [Outcome.panic v] ∧
        (StrandCanQuit quit pick c ⟨label, f⟩ q quitErr env log).result = some none) := by
  rw [StrandCanQuit_send quit pick c ⟨label, f⟩ q quitErr env log hsend]
  refine ⟨⟨label, Strand.Func ⟨label, f⟩⟩, by simp [Strand, hacc], by simp [Strand, hacc], rfl,
    ?_, ?_, ?_, ?_, ?_⟩
  · intro s
    exact Func_invoked_env ⟨label, f⟩ s
  · intro s e hd hfs
    have hf2 : (⟨label, f⟩ : Request (Env σ)).Func s.env = (Outcome.ret e, (f s.env).2) := by
      show f s.env = _
      rw [← hfs]
    show (Strand.Func ⟨label, f⟩ s).1 = _ ∧ (Strand.Func ⟨label, f⟩ s).2.err = _ ∧
      (Strand.Func ⟨label, f⟩ s).2.done = _
    rw [Func_ret ⟨label, f⟩ s e (f s.env).2 hf2 hd]
    exact ⟨rfl, rfl, rfl⟩
  · intro s v hd hfs
    have hf2 : (⟨label, f⟩ : Request (Env σ)).Func s.env = (Outcome.panic v, (f s.env).2) := by
      show f s.env = _
      rw [← hfs]
    show (Strand.Func ⟨label, f⟩ s).1 = _ ∧ (Strand.Func ⟨label, f⟩ s).2.err = _ ∧
      (Strand.Func ⟨label, f⟩ s).2.done = _
    rw [Func_panic ⟨label, f⟩ s v (f s.env).2 hf2 hd]
    exact ⟨rfl, rfl, rfl⟩
  · intro e honce hfe
    have hf2 : (⟨label, f⟩ : Request (Env σ)).Func env = (Outcome.ret e, (f env).2) := by
      show f env = _
      rw [← hfe]
    rw [Strand_run_ret c ⟨label, f⟩ env (f env).2 log t e hacc honce hf2]
    exact ⟨rfl, rfl, rfl, rfl⟩
  · intro v honce hfe
    have hf2 : (⟨label, f⟩ : Request (Env σ)).Func env = (Outcome.panic v, (f env).2) := by
      show f env = _
      rw [← hfe]
    rw [Strand_run_panic c ⟨label, f⟩ env (f env).2 log t v hacc honce hf2]
    exact ⟨rfl, rfl, rfl, rfl⟩

theorem one_request_wrapping_the_operation_witness :
    readyOnce.acceptAt = some 0 ∧ select none readyOnce.acceptAt false = Branch.send ∧
    ∃ r : Request (Call Unit),
      (Strand readyOnce ⟨"A", opTakes 5 none⟩ env0 []).sent = [r] ∧
      (StrandCanQuit none false readyOnce ⟨"A", opTakes 5 none⟩ none none env0 []).sent = [r] ∧
      r.Name = "A" :=
  ⟨rfl, by decide,
    (one_request_wrapping_the_operation "A" (opTakes 5 none) readyOnce env0 [] 0
      none none false none rfl (by decide)).imp (fun _ h => ⟨h.1, h.2.1, h.2.2.1⟩)⟩

end strand
